import Mathlib

/-!
# Verification of the Ridi decryption pipeline

A shallow embedding of the four-layer decryption pipeline of this repository:

* the CryptoJS-style AES cipher with its generalized key schedule
  (round-key count = word-count + 7), used by `decrypt_settings.js`;
* the key-material handling of `decrypt_settings.js` (`$b` key padding,
  ECB decryption, manual padding removal, device-identifier extraction);
* the Python `derive_book_key` and `decrypt_file_content` functions of the
  post-mortem document (AES-CBC, UTF-8 decoding, character slicing,
  tolerant PKCS7 unpadding);
* the base64 credential decoding of the first layer.

Bytes are modelled as natural numbers (with `< 256` side conditions where a
statement needs them), byte strings as `List Nat`, and text as lists of
Unicode code points.
-/

namespace Bookor

/-! ## GF(2^8) arithmetic (the Rijndael field) -/

/-- Multiplication by `x` in GF(2^8) modulo the Rijndael polynomial
`x^8 + x^4 + x^3 + x + 1`, masked back into a byte. -/
def xtime (a : Nat) : Nat :=
  if a &&& 0x80 = 0 then (a <<< 1) &&& 0xff else ((a <<< 1) ^^^ 0x1b) &&& 0xff

/-- Shift-and-add loop for GF(2^8) multiplication; the third argument is the
number of bits of `b` still to be consumed. -/
def gmulGo (a b : Nat) : Nat → Nat
  | 0 => 0
  | n + 1 => (if b &&& 1 = 1 then a else 0) ^^^ gmulGo (xtime a) (b >>> 1) n

/-- GF(2^8) multiplication: the low 8 bits of `b` select which
`xtime`-iterates of `a` are xored together. -/
def gmul (a b : Nat) : Nat := gmulGo a b 8

/-- GF(2^8) inverse (with `0 ↦ 0`), computed as `a ^ 254` by
square-and-multiply: `254 = 2 + 4 + 8 + 16 + 32 + 64 + 128`. -/
def gfInv (a0 : Nat) : Nat :=
  let a := a0 &&& 0xff
  let a2 := gmul a a
  let a4 := gmul a2 a2
  let a8 := gmul a4 a4
  let a16 := gmul a8 a8
  let a32 := gmul a16 a16
  let a64 := gmul a32 a32
  let a128 := gmul a64 a64
  gmul a2 (gmul a4 (gmul a8 (gmul a16 (gmul a32 (gmul a64 a128)))))

/-- Rotate the low 8 bits of `x` left by `k` places. -/
def rotl8 (x k : Nat) : Nat := ((x <<< k) ||| (x >>> (8 - k))) &&& 0xff

/-- The AES S-box: GF(2^8) inversion followed by the affine transform
`s = i ⊕ rotl1 i ⊕ rotl2 i ⊕ rotl3 i ⊕ rotl4 i ⊕ 0x63`. -/
def sbox (b : Nat) : Nat :=
  let i := gfInv b
  ((i ^^^ rotl8 i 1) ^^^ (rotl8 i 2 ^^^ rotl8 i 3)) ^^^ (rotl8 i 4 ^^^ 0x63)

/-- The inverse AES S-box: the inverse affine transform
`i = rotl1 s ⊕ rotl3 s ⊕ rotl6 s ⊕ 0x05` followed by GF(2^8) inversion. -/
def invSbox (s : Nat) : Nat :=
  let t := s &&& 0xff
  gfInv ((rotl8 t 1 ^^^ rotl8 t 3) ^^^ (rotl8 t 6 ^^^ 0x05))

/-! ## Byte-list utilities -/

/-- Concatenate a list of byte blocks. -/
def joinL : List (List Nat) → List Nat
  | [] => []
  | b :: bs => b ++ joinL bs

/-- The chunking loop, fuelled by the list length (each step consumes at
least one element when `n ≠ 0`). -/
def chunksGo (n : Nat) : Nat → List Nat → List (List Nat)
  | _, [] => []
  | 0, x :: xs => [x :: xs]
  | f + 1, x :: xs =>
    if n = 0 then [x :: xs]
    else (x :: xs).take n :: chunksGo n f ((x :: xs).drop n)

/-- Split a byte list into consecutive chunks of `n` bytes (the final chunk
may be shorter). -/
def chunksN (n : Nat) (l : List Nat) : List (List Nat) := chunksGo n l.length l

/-- The byte at index `len - 1`, i.e. the last byte (0 for the empty list). -/
def lastByte (l : List Nat) : Nat := l.getD (l.length - 1) 0

/-! ## AES state operations

The state is a 16-byte block in column-major order (byte `4*c + r` is row
`r` of column `c`). -/

/-- SubBytes: apply the S-box to every state byte. -/
def subBytes (s : List Nat) : List Nat := s.map sbox

/-- InvSubBytes: apply the inverse S-box to every state byte. -/
def invSubBytes (s : List Nat) : List Nat := s.map invSbox

/-- ShiftRows: row `r` of the column-major state rotates left by `r`. -/
def shiftRows : List Nat → List Nat
  | [a0, a1, a2, a3, a4, a5, a6, a7, a8, a9, a10, a11, a12, a13, a14, a15] =>
      [a0, a5, a10, a15, a4, a9, a14, a3, a8, a13, a2, a7, a12, a1, a6, a11]
  | s => s

/-- InvShiftRows: row `r` of the column-major state rotates right by `r`. -/
def invShiftRows : List Nat → List Nat
  | [b0, b1, b2, b3, b4, b5, b6, b7, b8, b9, b10, b11, b12, b13, b14, b15] =>
      [b0, b13, b10, b7, b4, b1, b14, b11, b8, b5, b2, b15, b12, b9, b6, b3]
  | s => s

/-- MixColumns on a single 4-byte column. -/
def mixColL : List Nat → List Nat
  | [a, b, c, d] =>
      [(gmul 2 a ^^^ gmul 3 b) ^^^ (c ^^^ d),
       (a ^^^ gmul 2 b) ^^^ (gmul 3 c ^^^ d),
       (a ^^^ b) ^^^ (gmul 2 c ^^^ gmul 3 d),
       (gmul 3 a ^^^ b) ^^^ (c ^^^ gmul 2 d)]
  | s => s

/-- InvMixColumns on a single 4-byte column. -/
def invMixColL : List Nat → List Nat
  | [a, b, c, d] =>
      [(gmul 14 a ^^^ gmul 11 b) ^^^ (gmul 13 c ^^^ gmul 9 d),
       (gmul 9 a ^^^ gmul 14 b) ^^^ (gmul 11 c ^^^ gmul 13 d),
       (gmul 13 a ^^^ gmul 9 b) ^^^ (gmul 14 c ^^^ gmul 11 d),
       (gmul 11 a ^^^ gmul 13 b) ^^^ (gmul 9 c ^^^ gmul 14 d)]
  | s => s

/-- MixColumns: mix each of the four state columns. -/
def mixColumns (s : List Nat) : List Nat := joinL ((chunksN 4 s).map mixColL)

/-- InvMixColumns: unmix each of the four state columns. -/
def invMixColumns (s : List Nat) : List Nat := joinL ((chunksN 4 s).map invMixColL)

/-- AddRoundKey: xor the round key into the state. -/
def addRoundKey (k s : List Nat) : List Nat := List.zipWith (fun x y => x ^^^ y) s k

/-- Pointwise xor of two byte lists (truncates to the shorter one). -/
def xorBytes (x y : List Nat) : List Nat := List.zipWith (fun a b => a ^^^ b) x y

/-! ## The generalized key schedule

Modelled from the spec: the cipher itself lives in the CryptoJS library and
is not part of this repository; the spec describes it as the standard AES
key-expansion recurrence continued for an arbitrary number of key words,
with round-key count = word-count + 7 and total rounds = word-count + 6. -/

/-- The AES round constants, as CryptoJS's fixed `RCON` table.  An access
past the end reads as 0 (as `undefined << 24` does in JavaScript). -/
def rcon : List Nat := [0x00, 0x01, 0x02, 0x04, 0x08, 0x10, 0x20, 0x40, 0x80, 0x1b, 0x36]

/-- Apply the S-box to each byte of a 32-bit word. -/
def subWord (w : Nat) : Nat :=
  (sbox ((w >>> 24) &&& 0xff) <<< 24) ||| (sbox ((w >>> 16) &&& 0xff) <<< 16) |||
    (sbox ((w >>> 8) &&& 0xff) <<< 8) ||| sbox (w &&& 0xff)

/-- Rotate a 32-bit word left by 8 bits. -/
def rotWord (w : Nat) : Nat := ((w <<< 8) ||| ((w &&& 0xffffffff) >>> 24)) &&& 0xffffffff

/-- Pack bytes into 32-bit big-endian words, 4 bytes per word, as a CryptoJS
`WordArray` stores them. -/
def bytesToWords (l : List Nat) : List Nat :=
  (chunksN 4 l).map fun c =>
    ((c.getD 0 0 &&& 0xff) <<< 24) ||| ((c.getD 1 0 &&& 0xff) <<< 16) |||
      ((c.getD 2 0 &&& 0xff) <<< 8) ||| (c.getD 3 0 &&& 0xff)

/-- Unpack a 32-bit word into its 4 big-endian bytes. -/
def wordBytes (w : Nat) : List Nat :=
  [(w >>> 24) &&& 0xff, (w >>> 16) &&& 0xff, (w >>> 8) &&& 0xff, w &&& 0xff]

/-- Modelled from the spec: the generalized key expansion.  For a key of
`keySize` words it produces `(keySize + 6 + 1) * 4` schedule words by the
standard AES recurrence, whatever `keySize` is (CryptoJS's `AES._doReset`). -/
def keyScheduleWords (keyWords : List Nat) : List Nat :=
  let keySize := keyWords.length
  let ksRows := (keySize + 6 + 1) * 4
  (List.range ksRows).foldl
    (fun sched ksRow =>
      let t :=
        if ksRow < keySize then keyWords.getD ksRow 0
        else
          let prev := sched.getD (ksRow - 1) 0
          let t1 :=
            if ksRow % keySize = 0 then
              subWord (rotWord prev) ^^^ (rcon.getD (ksRow / keySize) 0 <<< 24)
            else if 6 < keySize ∧ ksRow % keySize = 4 then subWord prev
            else prev
          sched.getD (ksRow - keySize) 0 ^^^ t1
      sched ++ [t])
    []

/-- Modelled from the spec: the round keys of the generalized schedule, as
16-byte blocks.  There are word-count + 7 of them. -/
def genRoundKeys (keyBytes : List Nat) : List (List Nat) :=
  let kw := bytesToWords keyBytes
  let sched := keyScheduleWords kw
  (List.range (kw.length + 6 + 1)).map fun r =>
    joinL ((List.range 4).map fun j => wordBytes (sched.getD (4 * r + j) 0))

/-! ## The block cipher -/

/-- One full encryption round: SubBytes, ShiftRows, MixColumns, AddRoundKey. -/
def stepE (s : List Nat) (k : List Nat) : List Nat :=
  addRoundKey k (mixColumns (shiftRows (subBytes s)))

/-- One full decryption round: AddRoundKey, InvMixColumns, InvShiftRows,
InvSubBytes. -/
def stepD (s : List Nat) (k : List Nat) : List Nat :=
  invSubBytes (invShiftRows (invMixColumns (addRoundKey k s)))

/-- The encryption rounds after the initial AddRoundKey: full rounds for all
round keys but the last, then the final round (no MixColumns). -/
def encRounds : List (List Nat) → List Nat → List Nat
  | [], s => s
  | [k], s => addRoundKey k (shiftRows (subBytes s))
  | k :: k' :: ks, s => encRounds (k' :: ks) (stepE s k)

/-- Modelled from the spec: encrypt one 16-byte block with the given round
keys (initial AddRoundKey, then the rounds). -/
def aesEncryptBlock (ks : List (List Nat)) (s : List Nat) : List Nat :=
  match ks with
  | [] => s
  | k0 :: rest => encRounds rest (addRoundKey k0 s)

/-- The decryption rounds: the round keys arrive in reverse order, full
inverse rounds for all but the last, then the final AddRoundKey. -/
def decRounds : List (List Nat) → List Nat → List Nat
  | [], s => s
  | [k], s => addRoundKey k s
  | k :: k' :: ks, s => decRounds (k' :: ks) (stepD s k)

/-- Modelled from the spec: decrypt one 16-byte block with the given round
keys (the straightforward inverse cipher). -/
def aesDecryptBlock (ks : List (List Nat)) (s : List Nat) : List Nat :=
  match ks.reverse with
  | [] => s
  | kR :: rest => decRounds rest (invSubBytes (invShiftRows (addRoundKey kR s)))

/-! ## Modes of operation and padding -/

/-- PKCS7 padding to 16-byte blocks: `p = 16 - len % 16` bytes of value `p`
(always at least one byte). -/
def pkcs7Pad (l : List Nat) : List Nat :=
  let p := 16 - l.length % 16
  l ++ List.replicate p p

/-- CryptoJS `Pkcs7.unpad`: drop as many trailing bytes as the last byte
says, without validating them. -/
def cryptojsUnpad (l : List Nat) : List Nat := l.take (l.length - lastByte l)

/-- ECB encryption of block-aligned data. -/
def ecbEncryptRaw (ks : List (List Nat)) (msg : List Nat) : List Nat :=
  joinL ((chunksN 16 msg).map (aesEncryptBlock ks))

/-- ECB decryption of block-aligned data (no padding handling). -/
def ecbDecryptRaw (ks : List (List Nat)) (ct : List Nat) : List Nat :=
  joinL ((chunksN 16 ct).map (aesDecryptBlock ks))

/-- Modelled from the spec: CryptoJS `AES.encrypt` in ECB mode with PKCS7
padding, under the generalized key schedule of `key`. -/
def aesGenEncryptECB (key msg : List Nat) : List Nat :=
  ecbEncryptRaw (genRoundKeys key) (pkcs7Pad msg)

/-- Modelled from the spec: CryptoJS `AES.decrypt` in ECB mode with PKCS7
padding, under the generalized key schedule of `key`. -/
def aesGenDecryptECB (key ct : List Nat) : List Nat :=
  cryptojsUnpad (ecbDecryptRaw (genRoundKeys key) ct)

/-- CBC encryption at block level: each plaintext block is xored with the
previous ciphertext block (initially the IV) before encryption. -/
def cbcEncryptBlocks (ks : List (List Nat)) : List Nat → List (List Nat) → List (List Nat)
  | _, [] => []
  | prev, b :: bs =>
    let c := aesEncryptBlock ks (xorBytes prev b)
    c :: cbcEncryptBlocks ks c bs

/-- CBC decryption at block level. -/
def cbcDecryptBlocks (ks : List (List Nat)) : List Nat → List (List Nat) → List (List Nat)
  | _, [] => []
  | prev, c :: cs => xorBytes prev (aesDecryptBlock ks c) :: cbcDecryptBlocks ks c cs

/-- CBC encryption of block-aligned bytes. -/
def cbcEncryptBytes (ks : List (List Nat)) (iv msg : List Nat) : List Nat :=
  joinL (cbcEncryptBlocks ks iv (chunksN 16 msg))

/-- CBC decryption of block-aligned bytes (raw: no padding removal). -/
def cbcDecryptBytes (ks : List (List Nat)) (iv ct : List Nat) : List Nat :=
  joinL (cbcDecryptBlocks ks iv (chunksN 16 ct))

/-! ## State-level lemmas -/

/-- A well-formed AES state: 16 bytes. -/
def ValidState (s : List Nat) : Prop := s.length = 16 ∧ ∀ x ∈ s, x < 256

/-! ## Round structure of the block cipher -/

/-- The full encryption rounds as a fold. -/
def foldE (M : List (List Nat)) (s : List Nat) : List Nat := M.foldl stepE s

/-- The full decryption rounds as a fold. -/
def foldD (N : List (List Nat)) (s : List Nat) : List Nat := N.foldl stepD s

/-! ## UTF-8 encoding and decoding

Text is modelled as lists of Unicode code points.  The decoder follows the
strict semantics of Python's `bytes.decode("utf-8")`: continuation bytes,
overlong forms, surrogates and out-of-range sequences are all rejected. -/

/-- Read one UTF-8 sequence from the front of a byte list: the decoded code
point and the number of bytes consumed (1 to 4); `none` on a malformed
sequence. -/
def utf8DecodeOne : List Nat → Option (Nat × Nat)
  | [] => none
  | b :: bs =>
    if b < 0x80 then some (b, 1)
    else if b < 0xc2 then none
    else if b < 0xe0 then
      match bs with
      | b1 :: _ =>
        if 0x80 ≤ b1 ∧ b1 < 0xc0 then
          some ((((b - 0xc0) <<< 6) ||| (b1 - 0x80)), 2)
        else none
      | [] => none
    else if b < 0xf0 then
      match bs with
      | b1 :: b2 :: _ =>
        if (0x80 ≤ b1 ∧ b1 < 0xc0) ∧ (0x80 ≤ b2 ∧ b2 < 0xc0) ∧
            (b = 0xe0 → 0xa0 ≤ b1) ∧ (b = 0xed → b1 < 0xa0) then
          some ((((b - 0xe0) <<< 12) ||| ((b1 - 0x80) <<< 6) ||| (b2 - 0x80)), 3)
        else none
      | _ => none
    else if b < 0xf5 then
      match bs with
      | b1 :: b2 :: b3 :: _ =>
        if (0x80 ≤ b1 ∧ b1 < 0xc0) ∧ (0x80 ≤ b2 ∧ b2 < 0xc0) ∧ (0x80 ≤ b3 ∧ b3 < 0xc0) ∧
            (b = 0xf0 → 0x90 ≤ b1) ∧ (b = 0xf4 → b1 < 0x90) then
          some ((((b - 0xf0) <<< 18) ||| ((b1 - 0x80) <<< 12) ||| ((b2 - 0x80) <<< 6) |||
            (b3 - 0x80)), 4)
        else none
      | _ => none
    else none

/-- The decoding loop, fuelled by the byte count. -/
def utf8DecodeGo : Nat → List Nat → Option (List Nat)
  | _, [] => some []
  | 0, _ :: _ => none
  | f + 1, b :: bs =>
    match utf8DecodeOne (b :: bs) with
    | none => none
    | some (c, k) => (utf8DecodeGo f ((b :: bs).drop k)).map (c :: ·)

/-- Strict UTF-8 decoding of a byte list into code points. -/
def utf8Decode (l : List Nat) : Option (List Nat) := utf8DecodeGo l.length l

/-- UTF-8 encoding of one code point. -/
def utf8EncodeChar (c : Nat) : List Nat :=
  if c < 0x80 then [c]
  else if c < 0x800 then [0xc0 ||| (c >>> 6), 0x80 ||| (c &&& 0x3f)]
  else if c < 0x10000 then
    [0xe0 ||| (c >>> 12), 0x80 ||| ((c >>> 6) &&& 0x3f), 0x80 ||| (c &&& 0x3f)]
  else
    [0xf0 ||| (c >>> 18), 0x80 ||| ((c >>> 12) &&& 0x3f), 0x80 ||| ((c >>> 6) &&& 0x3f),
      0x80 ||| (c &&& 0x3f)]

/-- UTF-8 encoding of a code-point list. -/
def utf8Encode (cps : List Nat) : List Nat := joinL (cps.map utf8EncodeChar)

/-- The length of a JavaScript string (UTF-16 code units): code points above
the basic multilingual plane count twice. -/
def jsStrLength (cps : List Nat) : Nat :=
  (cps.map fun c => if c < 0x10000 then 1 else 2).sum

/-! ## SettingsVault: `decrypt_settings.js` -/

/-- The `$b` key-material function of `decrypt_settings.js` and the Ridi
app: parse the secret string as UTF-8 bytes, then PKCS7-pad to a 16-byte
multiple — but only when `e.length`, the JavaScript string length in UTF-16
code units, is not a multiple of 16. -/
def dollarB (e : List Nat) : List Nat :=
  let bytes := utf8Encode e
  if jsStrLength e % 16 ≠ 0 then pkcs7Pad bytes else bytes

/-- The manual padding removal of `decrypt_settings.js` (lines 57–65): read
the last decrypted byte as the padding length; if `0 < P ≤ 16`, drop the
final `P` bytes (`slice(0, -P)`), otherwise fail.  The trailing bytes
themselves are not inspected. -/
def settingsUnpad (d : List Nat) : Option (List Nat) :=
  let paddingLen := lastByte d
  if 0 < paddingLen ∧ paddingLen ≤ 16 then some (d.take (d.length - paddingLen))
  else none

/-- The settings decryption pipeline of `decrypt_settings.js`: skip the
256-byte header, ECB-decrypt the rest with the `$b`-derived key material
under the generalized schedule (no cipher-level padding), then remove the
padding manually. -/
def settingsVaultDecrypt (key : List Nat) (blob : List Nat) : Option (List Nat) :=
  let encryptedData := blob.drop 256
  let decrypted := ecbDecryptRaw (genRoundKeys (dollarB key)) encryptedData
  settingsUnpad decrypted

/-- A JavaScript value, as far as the settings record needs: JSON data plus
`undefined`, the result of reading an absent property. -/
inductive Js where
  | undefined : Js
  | null : Js
  | bool : Bool → Js
  | num : Int → Js
  | str : String → Js
  | arr : List Js → Js
  | obj : List (String × Js) → Js

/-- JavaScript property access `v[k]`: `undefined` when the property is
absent or the value is not an object. -/
def Js.getField : Js → String → Js
  | .obj fields, k =>
    match fields.find? (fun p => p.1 == k) with
    | some p => p.2
    | none => .undefined
  | _, _ => .undefined

/-- JavaScript truthiness. -/
def Js.truthy : Js → Bool
  | .undefined => false
  | .null => false
  | .bool b => b
  | .num n => n != 0
  | .str s => s != ""
  | .arr _ => true
  | .obj _ => true

/-- The device-identifier extraction of `decrypt_settings.js` (lines
67–77): if `parsed.data && parsed.data.device`, read
`parsed.data.device.deviceId`; else if `parsed.device`, read
`parsed.device.deviceId`; otherwise nothing is produced. -/
def extractDeviceId (parsed : Js) : Option Js :=
  if (parsed.getField "data").truthy ∧ ((parsed.getField "data").getField "device").truthy then
    some (((parsed.getField "data").getField "device").getField "deviceId")
  else if (parsed.getField "device").truthy then
    some ((parsed.getField "device").getField "deviceId")
  else none

/-! ## BookKeyDeriver and ContentDecryptor: the Python final working code -/

/-- The Python check that the final `p` bytes of `d` all equal `p`
(`all(b == padding_len for b in decrypted[-padding_len:])`). -/
def pkcs7TailValid (d : List Nat) (p : Nat) : Bool :=
  (d.drop (d.length - p)).all (fun b => b == p)

/-- `derive_book_key` from the post-mortem's final working code.  Python
raises on a wrong-size AES key, a wrong-size IV or non-block-aligned
ciphertext, and on undecodable UTF-8; those paths are `none` here.  There
is no length check on the decoded text: the character slice `[68:84]`
silently truncates. -/
def derive_book_key (dat_file_contents : List Nat) (device_id : List Nat) : Option (List Nat) :=
  let intermediate_key := utf8Encode (device_id.take 16)
  if intermediate_key.length ≠ 16 then none
  else
    let iv := dat_file_contents.take 16
    let ciphertext := dat_file_contents.drop 16
    if iv.length ≠ 16 ∨ ciphertext.length % 16 ≠ 0 then none
    else
      let decrypted := cbcDecryptBytes (genRoundKeys intermediate_key) iv ciphertext
      match utf8Decode decrypted with
      | none => none
      | some decrypted_str => some (utf8Encode ((decrypted_str.drop 68).take 16))

/-- `decrypt_file_content` from the post-mortem's final working code:
size-based pass-through, AES-CBC decryption, then tolerant PKCS7 unpadding
(trim only when the trailing bytes really are padding; never fail). -/
def decrypt_file_content (encrypted_content : List Nat) (key : List Nat) : List Nat :=
  if encrypted_content.length < 16 then encrypted_content
  else
    let iv := encrypted_content.take 16
    let ciphertext := encrypted_content.drop 16
    if ciphertext.length = 0 ∨ ciphertext.length % 16 ≠ 0 then encrypted_content
    else
      let decrypted := cbcDecryptBytes (genRoundKeys key) iv ciphertext
      let padding_len := lastByte decrypted
      if 0 < padding_len ∧ padding_len ≤ 16 then
        if pkcs7TailValid decrypted padding_len then
          decrypted.take (decrypted.length - padding_len)
        else decrypted
      else decrypted

/-! ## SecretDecoder: base64 credential decoding -/

/-- The base64 value of one alphabet character. -/
def b64Val (c : Char) : Option Nat :=
  if 'A' ≤ c ∧ c ≤ 'Z' then some (c.toNat - 65)
  else if 'a' ≤ c ∧ c ≤ 'z' then some (c.toNat - 97 + 26)
  else if '0' ≤ c ∧ c ≤ '9' then some (c.toNat - 48 + 52)
  else if c = '+' then some 62
  else if c = '/' then some 63
  else none

/-- Modelled from the spec: strict base64 decoding — four-character groups,
`=` padding only at the very end, `none` on any malformed input. -/
def base64Decode : List Char → Option (List Nat)
  | [] => some []
  | c1 :: c2 :: c3 :: c4 :: rest =>
    match b64Val c1, b64Val c2 with
    | some v1, some v2 =>
      if c3 = '=' then
        if c4 = '=' ∧ rest = [] then some [(v1 <<< 2) ||| (v2 >>> 4)] else none
      else
        match b64Val c3 with
        | some v3 =>
          if c4 = '=' then
            if rest = [] then
              some [(v1 <<< 2) ||| (v2 >>> 4), ((v2 &&& 15) <<< 4) ||| (v3 >>> 2)]
            else none
          else
            match b64Val c4 with
            | some v4 =>
              (base64Decode rest).map
                (fun bs => [(v1 <<< 2) ||| (v2 >>> 4), ((v2 &&& 15) <<< 4) ||| (v3 >>> 2),
                  ((v3 &&& 3) <<< 6) ||| v4] ++ bs)
            | none => none
        | none => none
    | _, _ => none
  | _ => none

/-- Modelled from the spec: `SecretDecoder` — base64-decode the stored
credential, require exactly 36 decoded bytes, and return the UTF-8-decoded
secret string; `none` models `MalformedCredentialError`. -/
def secretDecoder (s : String) : Option (List Nat) :=
  match base64Decode s.data with
  | none => none
  | some bytes => if bytes.length = 36 then utf8Decode bytes else none

/-! ## Concrete data for the worked examples -/

/-- The device secret of the worked example,
`"8a41b50d-8f56-472c-818a-fd3b0cb1f400"`, as ASCII code points. -/
def uuidSecret : List Nat :=
  [56, 97, 52, 49, 98, 53, 48, 100, 45, 56, 102, 53, 54, 45, 52, 55, 50, 99, 45, 56,
   49, 56, 97, 45, 102, 100, 51, 98, 48, 99, 98, 49, 102, 52, 48, 48]

/-- A 16-byte "decrypted settings" buffer whose last byte is 3 but whose
final three bytes are 7, 7, 3 — not valid PKCS7 padding. -/
def c2Plain : List Nat := List.replicate 13 0 ++ [7, 7, 3]

/-- A settings blob (256-byte header plus one ECB block) that decrypts to
`c2Plain` under the `$b`-derived generalized schedule of `uuidSecret`. -/
def c2Blob : List Nat :=
  List.replicate 256 0 ++ ecbEncryptRaw (genRoundKeys (dollarB uuidSecret)) c2Plain

/-- A device identifier of exactly 16 ASCII characters, `"0123456789abcdef"`. -/
def c3DevId : List Nat := [48, 49, 50, 51, 52, 53, 54, 55, 56, 57, 97, 98, 99, 100, 101, 102]

/-- A key-material file whose CBC decryption is 16 ASCII bytes — valid
UTF-8 but only 16 characters, far fewer than 84. -/
def c3File : List Nat :=
  List.replicate 16 0 ++
    cbcEncryptBytes (genRoundKeys (utf8Encode c3DevId)) (List.replicate 16 0)
      (List.replicate 16 65)

/-- A content file: IV of zeros plus the CBC encryption of a padded 3-byte
plaintext under a fixed 16-byte key. -/
def c5Content : List Nat :=
  List.replicate 16 0 ++
    cbcEncryptBytes (genRoundKeys (List.replicate 16 1)) (List.replicate 16 0)
      (pkcs7Pad [65, 66, 67])

/-- An 8-character secret of `é` (U+00E9): 8 UTF-16 code units but 16 UTF-8
bytes. -/
def c6Str : List Nat := List.replicate 8 233

/-- A parsed settings record with `data.device` present but no `deviceId`
field anywhere. -/
def c9Record : Js := Js.obj [("data", Js.obj [("device", Js.obj [])])]

/-- The `decrypted` intermediate value of `decrypt_file_content`: the CBC
decryption of the candidate ciphertext under the candidate IV. -/
def fileDecrypted (content key : List Nat) : List Nat :=
  cbcDecryptBytes (genRoundKeys key) (content.take 16) (content.drop 16)

/-- The decrypted settings buffer before padding removal: the ECB decryption
of the blob past its 256-byte header, under the `$b`-derived key material. -/
def settingsDecrypted (key blob : List Nat) : List Nat :=
  ecbDecryptRaw (genRoundKeys (dollarB key)) (blob.drop 256)

/-! ## Xor lemmas -/

theorem xor_left_comm (a b c : Nat) : a ^^^ (b ^^^ c) = b ^^^ (a ^^^ c) := by
  rw [← Nat.xor_assoc, Nat.xor_comm a b, Nat.xor_assoc]

/-- Regroup a xor of two pairs into a xor of the cross pairs. -/
theorem xor4_swap (a b c d : Nat) : (a ^^^ b) ^^^ (c ^^^ d) = (a ^^^ c) ^^^ (b ^^^ d) := by
  rw [Nat.xor_assoc, xor_left_comm b c d, ← Nat.xor_assoc]

theorem shiftRight_xor (x y n : Nat) : (x ^^^ y) >>> n = (x >>> n) ^^^ (y >>> n) :=
  Nat.eq_of_testBit_eq fun i => by simp [Nat.testBit_shiftRight, Nat.testBit_xor]

theorem xor_lt256 {x y : Nat} (hx : x < 256) (hy : y < 256) : x ^^^ y < 256 := by
  have h := Nat.xor_lt_two_pow (n := 8) (x := x) (y := y) (by simpa using hx) (by simpa using hy)
  simpa using h

theorem and255_lt (x : Nat) : x &&& 255 < 256 := Nat.lt_succ_of_le Nat.and_le_right

/-! ## GF(2^8) lemmas -/

theorem xtime_lt (a : Nat) : xtime a < 256 := by
  unfold xtime; split <;> exact and255_lt _

theorem gmulGo_lt (n : Nat) : ∀ a b : Nat, a < 256 → gmulGo a b n < 256 := by
  induction n with
  | zero => intro a b ha; simp [gmulGo]
  | succ n ih =>
    intro a b ha
    refine xor_lt256 ?_ (ih _ _ (xtime_lt a))
    split <;> omega

theorem gmul_lt (a b : Nat) (ha : a < 256) : gmul a b < 256 := gmulGo_lt 8 a b ha

/-- `gmul a` is linear over xor in its second argument: the loop reads the
bits of `b`, and the bits of `x ^^^ y` are the xors of the bits. -/
theorem gmulGo_xor (n : Nat) : ∀ a x y : Nat,
    gmulGo a (x ^^^ y) n = gmulGo a x n ^^^ gmulGo a y n := by
  induction n with
  | zero => intro a x y; simp [gmulGo]
  | succ n ih =>
    intro a x y
    simp only [gmulGo]
    rw [shiftRight_xor, ih, xor4_swap]
    congr 1
    have hx : x &&& 1 = x % 2 := Nat.and_one_is_mod x
    have hy : y &&& 1 = y % 2 := Nat.and_one_is_mod y
    rw [Nat.and_xor_distrib_right]
    rcases Nat.mod_two_eq_zero_or_one x with h1 | h1 <;>
      rcases Nat.mod_two_eq_zero_or_one y with h2 | h2 <;>
        simp [hx, hy, h1, h2, Nat.xor_self]

theorem gmul_xor (a x y : Nat) : gmul a (x ^^^ y) = gmul a x ^^^ gmul a y :=
  gmulGo_xor 8 a x y

theorem gfInv_lt (a0 : Nat) : gfInv a0 < 256 := by
  unfold gfInv
  exact gmul_lt _ _ (gmul_lt _ _ (and255_lt a0))

theorem rotl8_lt (x k : Nat) : rotl8 x k < 256 := and255_lt _

theorem sbox_lt (b : Nat) : sbox b < 256 := by
  unfold sbox
  exact xor_lt256 (xor_lt256 (xor_lt256 (gfInv_lt b) (rotl8_lt _ _))
    (xor_lt256 (rotl8_lt _ _) (rotl8_lt _ _))) (xor_lt256 (rotl8_lt _ _) (by omega))

theorem invSbox_lt (s : Nat) : invSbox s < 256 := gfInv_lt _

set_option maxRecDepth 100000 in
/-- On bytes, the inverse S-box undoes the S-box. -/
theorem invSbox_sbox : ∀ b < 256, invSbox (sbox b) = b := by decide

/-! ## List destruction helpers -/

theorem cons_of_length_succ {α : Type} (s : List α) (n : Nat) (h : s.length = n + 1) :
    ∃ a t, s = a :: t ∧ t.length = n := by
  cases s with
  | nil => simp at h
  | cons a t => exact ⟨a, t, rfl, by simpa using h⟩

theorem exists4 (s : List Nat) (h : s.length = 4) :
    ∃ a b c d, s = [a, b, c, d] := by
  obtain ⟨a, s1, rfl, h1⟩ := cons_of_length_succ s 3 h
  obtain ⟨b, s2, rfl, h2⟩ := cons_of_length_succ s1 2 h1
  obtain ⟨c, s3, rfl, h3⟩ := cons_of_length_succ s2 1 h2
  obtain ⟨d, s4, rfl, h4⟩ := cons_of_length_succ s3 0 h3
  exact ⟨a, b, c, d, by simp [List.eq_nil_of_length_eq_zero h4]⟩

theorem exists16 (s : List Nat) (h : s.length = 16) :
    ∃ a0 a1 a2 a3 a4 a5 a6 a7 a8 a9 a10 a11 a12 a13 a14 a15,
      s = [a0, a1, a2, a3, a4, a5, a6, a7, a8, a9, a10, a11, a12, a13, a14, a15] := by
  obtain ⟨a0, s1, rfl, h1⟩ := cons_of_length_succ s 15 h
  obtain ⟨a1, s2, rfl, h2⟩ := cons_of_length_succ s1 14 h1
  obtain ⟨a2, s3, rfl, h3⟩ := cons_of_length_succ s2 13 h2
  obtain ⟨a3, s4, rfl, h4⟩ := cons_of_length_succ s3 12 h3
  obtain ⟨a4, s5, rfl, h5⟩ := cons_of_length_succ s4 11 h4
  obtain ⟨a5, s6, rfl, h6⟩ := cons_of_length_succ s5 10 h5
  obtain ⟨a6, s7, rfl, h7⟩ := cons_of_length_succ s6 9 h6
  obtain ⟨a7, s8, rfl, h8⟩ := cons_of_length_succ s7 8 h7
  obtain ⟨a8, s9, rfl, h9⟩ := cons_of_length_succ s8 7 h8
  obtain ⟨a9, s10, rfl, h10⟩ := cons_of_length_succ s9 6 h9
  obtain ⟨a10, s11, rfl, h11⟩ := cons_of_length_succ s10 5 h10
  obtain ⟨a11, s12, rfl, h12⟩ := cons_of_length_succ s11 4 h11
  obtain ⟨a12, s13, rfl, h13⟩ := cons_of_length_succ s12 3 h12
  obtain ⟨a13, s14, rfl, h14⟩ := cons_of_length_succ s13 2 h13
  obtain ⟨a14, s15, rfl, h15⟩ := cons_of_length_succ s14 1 h14
  obtain ⟨a15, s16, rfl, h16⟩ := cons_of_length_succ s15 0 h15
  exact ⟨a0, a1, a2, a3, a4, a5, a6, a7, a8, a9, a10, a11, a12, a13, a14, a15,
    by simp [List.eq_nil_of_length_eq_zero h16]⟩

/-! ## Chunking lemmas -/

@[simp] theorem chunksN_nil (n : Nat) : chunksN n [] = [] := rfl

/-- The chunking loop does not depend on the exact fuel, as long as there
is enough of it. -/
theorem chunksGo_fuel (n : Nat) (hn : n ≠ 0) : ∀ f f' (l : List Nat),
    l.length ≤ f → l.length ≤ f' → chunksGo n f l = chunksGo n f' l := by
  intro f
  induction f with
  | zero =>
    intro f' l hf _
    cases l with
    | nil => cases f' <;> rfl
    | cons x xs => simp at hf
  | succ f ih =>
    intro f' l hf hf'
    cases l with
    | nil => cases f' <;> rfl
    | cons x xs =>
      cases f' with
      | zero => simp at hf'
      | succ f'' =>
        show chunksGo n (f + 1) (x :: xs) = chunksGo n (f'' + 1) (x :: xs)
        rw [chunksGo, chunksGo, if_neg hn, if_neg hn]
        congr 1
        apply ih
        · simp only [List.length_drop, List.length_cons]
          simp only [List.length_cons] at hf
          omega
        · simp only [List.length_drop, List.length_cons]
          simp only [List.length_cons] at hf'
          omega

theorem chunksN_eq (n : Nat) (l : List Nat) (hn : n ≠ 0) (hl : l ≠ []) :
    chunksN n l = l.take n :: chunksN n (l.drop n) := by
  cases l with
  | nil => contradiction
  | cons x xs =>
    show chunksGo n (xs.length + 1) (x :: xs) = _
    rw [chunksGo, if_neg hn]
    congr 1
    apply chunksGo_fuel n hn
    · simp only [List.length_drop, List.length_cons]; omega
    · exact Nat.le_refl _

theorem chunksN_append (n : Nat) (b rest : List Nat) (hn : n ≠ 0) (h : b.length = n) :
    chunksN n (b ++ rest) = b :: chunksN n rest := by
  have hb : b ≠ [] := by
    intro e; subst e; simp at h; omega
  have hne : b ++ rest ≠ [] := by
    cases b with
    | nil => contradiction
    | cons x xs => simp
  rw [chunksN_eq n _ hn hne]
  rw [← h, List.take_left, List.drop_left]

theorem joinL_chunksN (n : Nat) (hn : n ≠ 0) (l : List Nat) :
    joinL (chunksN n l) = l := by
  have main : ∀ m (l : List Nat), l.length ≤ m → joinL (chunksN n l) = l := by
    intro m
    induction m with
    | zero =>
      intro l hl
      have : l = [] := List.eq_nil_of_length_eq_zero (Nat.le_zero.mp hl)
      subst this; simp [joinL]
    | succ m ih =>
      intro l hl
      cases l with
      | nil => simp [joinL]
      | cons x xs =>
        rw [chunksN_eq n _ hn (by simp)]
        show (x :: xs).take n ++ joinL (chunksN n ((x :: xs).drop n)) = x :: xs
        have hlen : ((x :: xs).drop n).length ≤ m := by
          simp only [List.length_drop, List.length_cons]
          simp only [List.length_cons] at hl
          omega
        rw [ih ((x :: xs).drop n) hlen]
        exact List.take_append_drop n (x :: xs)
  exact main l.length l (Nat.le_refl _)

theorem chunksN_joinL (n : Nat) (bls : List (List Nat)) (hn : n ≠ 0)
    (hb : ∀ b ∈ bls, b.length = n) : chunksN n (joinL bls) = bls := by
  induction bls with
  | nil => simp [joinL]
  | cons b bls ih =>
    show chunksN n (b ++ joinL bls) = b :: bls
    rw [chunksN_append n b _ hn (hb b (by simp))]
    rw [ih fun c hc => hb c (by simp [hc])]

theorem chunksN_length_all (n : Nat) (hn : n ≠ 0) (l : List Nat)
    (h : l.length % n = 0) : ∀ b ∈ chunksN n l, b.length = n := by
  have main : ∀ m (l : List Nat), l.length ≤ m → l.length % n = 0 →
      ∀ b ∈ chunksN n l, b.length = n := by
    intro m
    induction m with
    | zero =>
      intro l hl _ b hb
      have : l = [] := List.eq_nil_of_length_eq_zero (Nat.le_zero.mp hl)
      subst this; simp at hb
    | succ m ih =>
      intro l hl hmod b hb
      cases l with
      | nil => simp at hb
      | cons x xs =>
        have hge : n ≤ (x :: xs).length := by
          by_contra hlt
          rw [Nat.mod_eq_of_lt (by omega)] at hmod
          simp at hmod
        simp only [List.length_cons] at hge hl
        rw [chunksN_eq n _ hn (by simp)] at hb
        rcases List.mem_cons.mp hb with hb | hb
        · subst hb; simp only [List.length_take, List.length_cons]; omega
        · obtain ⟨k, hk⟩ := Nat.dvd_of_mod_eq_zero hmod
          simp only [List.length_cons] at hk
          obtain ⟨k', rfl⟩ : ∃ k', k = k' + 1 := by
            refine ⟨k - 1, ?_⟩
            rcases Nat.eq_zero_or_pos k with h0 | h1
            · subst h0; omega
            · omega
          have hdroplen : ((x :: xs).drop n).length = n * k' := by
            simp only [List.length_drop, List.length_cons, hk, Nat.mul_succ]
            omega
          refine ih ((x :: xs).drop n) ?_ ?_ b hb
          · simp only [List.length_drop, List.length_cons]; omega
          · rw [hdroplen]; exact Nat.mul_mod_right n k'
  exact main l.length l (Nat.le_refl _) h

theorem mem_of_mem_chunksN (n : Nat) (l : List Nat) (b : List Nat)
    (hb : b ∈ chunksN n l) : ∀ x ∈ b, x ∈ l := by
  have main : ∀ m (l : List Nat), l.length ≤ m →
      ∀ b ∈ chunksN n l, ∀ x ∈ b, x ∈ l := by
    intro m
    induction m with
    | zero =>
      intro l hl b hb
      have : l = [] := List.eq_nil_of_length_eq_zero (Nat.le_zero.mp hl)
      subst this; simp at hb
    | succ m ih =>
      intro l hl b hb x hx
      cases l with
      | nil => simp at hb
      | cons y ys =>
        by_cases hn : n = 0
        · subst hn
          have hb' : b = y :: ys := by
            simpa [chunksN, chunksGo] using hb
          subst hb'; exact hx
        · rw [chunksN_eq n _ hn (by simp)] at hb
          rcases List.mem_cons.mp hb with hb | hb
          · subst hb; exact List.mem_of_mem_take hx
          · have hlen : ((y :: ys).drop n).length ≤ m := by
              simp only [List.length_drop, List.length_cons]
              simp only [List.length_cons] at hl
              omega
            exact List.mem_of_mem_drop (ih ((y :: ys).drop n) hlen b hb x hx)
  exact main l.length l (Nat.le_refl _) b hb

theorem joinL_length (bls : List (List Nat)) (m : Nat)
    (h : ∀ b ∈ bls, b.length = m) : (joinL bls).length = bls.length * m := by
  induction bls with
  | nil => simp [joinL]
  | cons b bls ih =>
    show (b ++ joinL bls).length = (bls.length + 1) * m
    rw [List.length_append, h b (by simp), ih fun c hc => h c (by simp [hc])]
    ring

/-! ## MixColumns inversion -/

/-- `mixColL` is xor-linear. -/
theorem mixColL_linear (x1 x2 x3 x4 y1 y2 y3 y4 : Nat) :
    mixColL [x1 ^^^ y1, x2 ^^^ y2, x3 ^^^ y3, x4 ^^^ y4] =
      xorBytes (mixColL [x1, x2, x3, x4]) (mixColL [y1, y2, y3, y4]) := by
  simp only [mixColL, xorBytes, List.zipWith_cons_cons, List.zipWith_nil_right, gmul_xor]
  simp [Nat.xor_assoc, Nat.xor_comm, xor_left_comm]

/-- `invMixColL` is xor-linear. -/
theorem invMixColL_linear (x1 x2 x3 x4 y1 y2 y3 y4 : Nat) :
    invMixColL [x1 ^^^ y1, x2 ^^^ y2, x3 ^^^ y3, x4 ^^^ y4] =
      xorBytes (invMixColL [x1, x2, x3, x4]) (invMixColL [y1, y2, y3, y4]) := by
  simp only [invMixColL, xorBytes, List.zipWith_cons_cons, List.zipWith_nil_right, gmul_xor]
  simp [Nat.xor_assoc, Nat.xor_comm, xor_left_comm]

theorem invMixColL_xorBytes (u v : List Nat) (hu : u.length = 4) (hv : v.length = 4) :
    invMixColL (xorBytes u v) = xorBytes (invMixColL u) (invMixColL v) := by
  obtain ⟨x1, x2, x3, x4, rfl⟩ := exists4 u hu
  obtain ⟨y1, y2, y3, y4, rfl⟩ := exists4 v hv
  simpa [xorBytes] using invMixColL_linear x1 x2 x3 x4 y1 y2 y3 y4

set_option maxRecDepth 100000 in
/-- MixColumns inversion on the first basis component of a column. -/
theorem invMix_mix_basis0 : ∀ a < 256, invMixColL (mixColL [a, 0, 0, 0]) = [a, 0, 0, 0] := by
  decide

set_option maxRecDepth 100000 in
/-- MixColumns inversion on the second basis component of a column. -/
theorem invMix_mix_basis1 : ∀ a < 256, invMixColL (mixColL [0, a, 0, 0]) = [0, a, 0, 0] := by
  decide

set_option maxRecDepth 100000 in
/-- MixColumns inversion on the third basis component of a column. -/
theorem invMix_mix_basis2 : ∀ a < 256, invMixColL (mixColL [0, 0, a, 0]) = [0, 0, a, 0] := by
  decide

set_option maxRecDepth 100000 in
/-- MixColumns inversion on the fourth basis component of a column. -/
theorem invMix_mix_basis3 : ∀ a < 256, invMixColL (mixColL [0, 0, 0, a]) = [0, 0, 0, a] := by
  decide

theorem mixColL_length4 (a b c d : Nat) : (mixColL [a, b, c, d]).length = 4 := by
  simp [mixColL]

/-- On a column of bytes, `invMixColL` undoes `mixColL`: the column is split
into its four basis components, where the inversion is checked byte by byte,
and xor-linearity of both maps reassembles the general case. -/
theorem invMixColL_mixColL (a b c d : Nat)
    (ha : a < 256) (hb : b < 256) (hc : c < 256) (hd : d < 256) :
    invMixColL (mixColL [a, b, c, d]) = [a, b, c, d] := by
  have h1 : mixColL [a, b, c, d] = xorBytes (mixColL [a, 0, 0, 0]) (mixColL [0, b, c, d]) := by
    simpa [xorBytes] using mixColL_linear a 0 0 0 0 b c d
  have h2 : mixColL [0, b, c, d] = xorBytes (mixColL [0, b, 0, 0]) (mixColL [0, 0, c, d]) := by
    simpa [xorBytes] using mixColL_linear 0 b 0 0 0 0 c d
  have h3 : mixColL [0, 0, c, d] = xorBytes (mixColL [0, 0, c, 0]) (mixColL [0, 0, 0, d]) := by
    simpa [xorBytes] using mixColL_linear 0 0 c 0 0 0 0 d
  have l1 : (mixColL [0, b, c, d]).length = 4 := mixColL_length4 0 b c d
  have l2 : (mixColL [0, 0, c, d]).length = 4 := mixColL_length4 0 0 c d
  calc invMixColL (mixColL [a, b, c, d])
      = xorBytes (invMixColL (mixColL [a, 0, 0, 0])) (invMixColL (mixColL [0, b, c, d])) := by
        rw [h1, invMixColL_xorBytes _ _ (mixColL_length4 a 0 0 0) l1]
    _ = xorBytes [a, 0, 0, 0]
          (xorBytes (invMixColL (mixColL [0, b, 0, 0])) (invMixColL (mixColL [0, 0, c, d]))) := by
        rw [invMix_mix_basis0 a ha, h2, invMixColL_xorBytes _ _ (mixColL_length4 0 b 0 0) l2]
    _ = xorBytes [a, 0, 0, 0] (xorBytes [0, b, 0, 0]
          (xorBytes (invMixColL (mixColL [0, 0, c, 0])) (invMixColL (mixColL [0, 0, 0, d])))) := by
        rw [invMix_mix_basis1 b hb, h3,
          invMixColL_xorBytes _ _ (mixColL_length4 0 0 c 0) (mixColL_length4 0 0 0 d)]
    _ = xorBytes [a, 0, 0, 0] (xorBytes [0, b, 0, 0] (xorBytes [0, 0, c, 0] [0, 0, 0, d])) := by
        rw [invMix_mix_basis2 c hc, invMix_mix_basis3 d hd]
    _ = [a, b, c, d] := by simp [xorBytes]

theorem chunksN4_16 (a0 a1 a2 a3 a4 a5 a6 a7 a8 a9 a10 a11 a12 a13 a14 a15 : Nat) :
    chunksN 4 [a0, a1, a2, a3, a4, a5, a6, a7, a8, a9, a10, a11, a12, a13, a14, a15] =
      [[a0, a1, a2, a3], [a4, a5, a6, a7], [a8, a9, a10, a11], [a12, a13, a14, a15]] := by
  have hj : [a0, a1, a2, a3, a4, a5, a6, a7, a8, a9, a10, a11, a12, a13, a14, a15] =
      joinL [[a0, a1, a2, a3], [a4, a5, a6, a7], [a8, a9, a10, a11], [a12, a13, a14, a15]] := by
    simp [joinL]
  rw [hj, chunksN_joinL 4 _ (by omega)
    (by intro b hb; simp at hb; rcases hb with rfl | rfl | rfl | rfl <;> rfl)]

theorem subBytes_length (s : List Nat) : (subBytes s).length = s.length := by simp [subBytes]

theorem subBytes_lt (s : List Nat) : ∀ x ∈ subBytes s, x < 256 := by
  intro x hx
  simp only [subBytes, List.mem_map] at hx
  obtain ⟨a, _, rfl⟩ := hx
  exact sbox_lt a

theorem invSubBytes_lt (s : List Nat) : ∀ x ∈ invSubBytes s, x < 256 := by
  intro x hx
  simp only [invSubBytes, List.mem_map] at hx
  obtain ⟨a, _, rfl⟩ := hx
  exact invSbox_lt a

theorem invSubBytes_subBytes (s : List Nat) (hb : ∀ x ∈ s, x < 256) :
    invSubBytes (subBytes s) = s := by
  induction s with
  | nil => rfl
  | cons a s ih =>
    show invSbox (sbox a) :: invSubBytes (subBytes s) = a :: s
    rw [invSbox_sbox a (hb a (by simp)), ih fun x hx => hb x (by simp [hx])]

theorem invShiftRows_shiftRows (s : List Nat) (h : s.length = 16) :
    invShiftRows (shiftRows s) = s := by
  obtain ⟨a0, a1, a2, a3, a4, a5, a6, a7, a8, a9, a10, a11, a12, a13, a14, a15, rfl⟩ :=
    exists16 s h
  rfl

theorem valid_subBytes {s : List Nat} (h : ValidState s) : ValidState (subBytes s) :=
  ⟨by rw [subBytes_length, h.1], subBytes_lt s⟩

theorem valid_invSubBytes {s : List Nat} (h : ValidState s) : ValidState (invSubBytes s) :=
  ⟨by simp [invSubBytes, h.1], invSubBytes_lt s⟩

theorem valid_shiftRows {s : List Nat} (h : ValidState s) : ValidState (shiftRows s) := by
  obtain ⟨h16, hb⟩ := h
  obtain ⟨a0, a1, a2, a3, a4, a5, a6, a7, a8, a9, a10, a11, a12, a13, a14, a15, rfl⟩ :=
    exists16 s h16
  refine ⟨rfl, ?_⟩
  intro x hx
  simp only [shiftRows, List.mem_cons, List.not_mem_nil, or_false] at hx
  rcases hx with rfl | rfl | rfl | rfl | rfl | rfl | rfl | rfl | rfl | rfl | rfl | rfl |
    rfl | rfl | rfl | rfl <;> exact hb _ (by simp)

theorem valid_invShiftRows {s : List Nat} (h : ValidState s) : ValidState (invShiftRows s) := by
  obtain ⟨h16, hb⟩ := h
  obtain ⟨a0, a1, a2, a3, a4, a5, a6, a7, a8, a9, a10, a11, a12, a13, a14, a15, rfl⟩ :=
    exists16 s h16
  refine ⟨rfl, ?_⟩
  intro x hx
  simp only [invShiftRows, List.mem_cons, List.not_mem_nil, or_false] at hx
  rcases hx with rfl | rfl | rfl | rfl | rfl | rfl | rfl | rfl | rfl | rfl | rfl | rfl |
    rfl | rfl | rfl | rfl <;> exact hb _ (by simp)

theorem mixColL_lt (a b c d : Nat) (ha : a < 256) (hb : b < 256) (hc : c < 256) (hd : d < 256) :
    ∀ x ∈ mixColL [a, b, c, d], x < 256 := by
  intro x hx
  simp only [mixColL, List.mem_cons, List.not_mem_nil, or_false] at hx
  rcases hx with rfl | rfl | rfl | rfl
  · exact xor_lt256 (xor_lt256 (gmul_lt 2 a (by omega)) (gmul_lt 3 b (by omega)))
      (xor_lt256 hc hd)
  · exact xor_lt256 (xor_lt256 ha (gmul_lt 2 b (by omega)))
      (xor_lt256 (gmul_lt 3 c (by omega)) hd)
  · exact xor_lt256 (xor_lt256 ha hb)
      (xor_lt256 (gmul_lt 2 c (by omega)) (gmul_lt 3 d (by omega)))
  · exact xor_lt256 (xor_lt256 (gmul_lt 3 a (by omega)) hb)
      (xor_lt256 hc (gmul_lt 2 d (by omega)))

theorem invMixColL_lt (a b c d : Nat) : ∀ x ∈ invMixColL [a, b, c, d], x < 256 := by
  intro x hx
  simp only [invMixColL, List.mem_cons, List.not_mem_nil, or_false] at hx
  rcases hx with rfl | rfl | rfl | rfl <;>
    exact xor_lt256 (xor_lt256 (gmul_lt _ _ (by omega)) (gmul_lt _ _ (by omega)))
      (xor_lt256 (gmul_lt _ _ (by omega)) (gmul_lt _ _ (by omega)))

/-- On a valid state, MixColumns splits into the four column maps. -/
theorem mixColumns_16 (a0 a1 a2 a3 a4 a5 a6 a7 a8 a9 a10 a11 a12 a13 a14 a15 : Nat) :
    mixColumns [a0, a1, a2, a3, a4, a5, a6, a7, a8, a9, a10, a11, a12, a13, a14, a15] =
      joinL [mixColL [a0, a1, a2, a3], mixColL [a4, a5, a6, a7],
        mixColL [a8, a9, a10, a11], mixColL [a12, a13, a14, a15]] := by
  rw [mixColumns, chunksN4_16]
  rfl

theorem valid_mixColumns {s : List Nat} (h : ValidState s) : ValidState (mixColumns s) := by
  obtain ⟨h16, hb⟩ := h
  obtain ⟨a0, a1, a2, a3, a4, a5, a6, a7, a8, a9, a10, a11, a12, a13, a14, a15, rfl⟩ :=
    exists16 s h16
  rw [mixColumns_16]
  constructor
  · have hlen : ∀ b ∈ [mixColL [a0, a1, a2, a3], mixColL [a4, a5, a6, a7],
        mixColL [a8, a9, a10, a11], mixColL [a12, a13, a14, a15]], b.length = 4 := by
      intro b hbb
      simp at hbb
      rcases hbb with rfl | rfl | rfl | rfl <;> exact mixColL_length4 _ _ _ _
    rw [joinL_length _ 4 hlen]
    simp
  · intro x hx
    have hmem : ∀ b ∈ [mixColL [a0, a1, a2, a3], mixColL [a4, a5, a6, a7],
        mixColL [a8, a9, a10, a11], mixColL [a12, a13, a14, a15]], ∀ y ∈ b, y < 256 := by
      intro b hbb
      simp at hbb
      rcases hbb with rfl | rfl | rfl | rfl <;>
        exact mixColL_lt _ _ _ _ (hb _ (by simp)) (hb _ (by simp)) (hb _ (by simp))
          (hb _ (by simp))
    revert hx
    generalize hL : [mixColL [a0, a1, a2, a3], mixColL [a4, a5, a6, a7],
        mixColL [a8, a9, a10, a11], mixColL [a12, a13, a14, a15]] = L at hmem
    clear hL
    induction L with
    | nil => intro hx; simp [joinL] at hx
    | cons b bs ih =>
      intro hx
      simp only [joinL, List.mem_append] at hx
      rcases hx with hx | hx
      · exact hmem b (by simp) x hx
      · exact ih (fun c hc => hmem c (by simp [hc])) hx

theorem valid_invMixColumns {s : List Nat} (h : ValidState s) : ValidState (invMixColumns s) := by
  obtain ⟨h16, hb⟩ := h
  obtain ⟨a0, a1, a2, a3, a4, a5, a6, a7, a8, a9, a10, a11, a12, a13, a14, a15, rfl⟩ :=
    exists16 s h16
  have heq : invMixColumns [a0, a1, a2, a3, a4, a5, a6, a7, a8, a9, a10, a11, a12, a13, a14, a15] =
      joinL [invMixColL [a0, a1, a2, a3], invMixColL [a4, a5, a6, a7],
        invMixColL [a8, a9, a10, a11], invMixColL [a12, a13, a14, a15]] := by
    rw [invMixColumns, chunksN4_16]
    rfl
  rw [heq]
  constructor
  · have hlen : ∀ b ∈ [invMixColL [a0, a1, a2, a3], invMixColL [a4, a5, a6, a7],
        invMixColL [a8, a9, a10, a11], invMixColL [a12, a13, a14, a15]], b.length = 4 := by
      intro b hbb
      simp at hbb
      rcases hbb with rfl | rfl | rfl | rfl <;> simp [invMixColL]
    rw [joinL_length _ 4 hlen]
    simp
  · intro x hx
    have hmem : ∀ b ∈ [invMixColL [a0, a1, a2, a3], invMixColL [a4, a5, a6, a7],
        invMixColL [a8, a9, a10, a11], invMixColL [a12, a13, a14, a15]], ∀ y ∈ b, y < 256 := by
      intro b hbb
      simp at hbb
      rcases hbb with rfl | rfl | rfl | rfl <;> exact invMixColL_lt _ _ _ _
    revert hx
    generalize hL : [invMixColL [a0, a1, a2, a3], invMixColL [a4, a5, a6, a7],
        invMixColL [a8, a9, a10, a11], invMixColL [a12, a13, a14, a15]] = L at hmem
    clear hL
    induction L with
    | nil => intro hx; simp [joinL] at hx
    | cons b bs ih =>
      intro hx
      simp only [joinL, List.mem_append] at hx
      rcases hx with hx | hx
      · exact hmem b (by simp) x hx
      · exact ih (fun c hc => hmem c (by simp [hc])) hx

/-- On a valid state, InvMixColumns undoes MixColumns. -/
theorem invMixColumns_mixColumns (s : List Nat) (h : ValidState s) :
    invMixColumns (mixColumns s) = s := by
  obtain ⟨h16, hb⟩ := h
  obtain ⟨a0, a1, a2, a3, a4, a5, a6, a7, a8, a9, a10, a11, a12, a13, a14, a15, rfl⟩ :=
    exists16 s h16
  rw [mixColumns_16, invMixColumns]
  rw [chunksN_joinL 4 _ (by omega)
    (by intro b hbb; simp at hbb;
        rcases hbb with rfl | rfl | rfl | rfl <;> exact mixColL_length4 _ _ _ _)]
  simp only [List.map]
  rw [invMixColL_mixColL a0 a1 a2 a3 (hb _ (by simp)) (hb _ (by simp)) (hb _ (by simp))
      (hb _ (by simp)),
    invMixColL_mixColL a4 a5 a6 a7 (hb _ (by simp)) (hb _ (by simp)) (hb _ (by simp))
      (hb _ (by simp)),
    invMixColL_mixColL a8 a9 a10 a11 (hb _ (by simp)) (hb _ (by simp)) (hb _ (by simp))
      (hb _ (by simp)),
    invMixColL_mixColL a12 a13 a14 a15 (hb _ (by simp)) (hb _ (by simp)) (hb _ (by simp))
      (hb _ (by simp))]
  simp [joinL]

/-! ## AddRoundKey and xor lemmas on byte lists -/

theorem addRoundKey_length (k s : List Nat) :
    (addRoundKey k s).length = min s.length k.length := by simp [addRoundKey]

theorem addRoundKey_lt (k s : List Nat) (hk : ∀ x ∈ k, x < 256) (hs : ∀ x ∈ s, x < 256) :
    ∀ x ∈ addRoundKey k s, x < 256 := by
  induction s generalizing k with
  | nil => intro x hx; simp [addRoundKey] at hx
  | cons a s ih =>
    intro x hx
    cases k with
    | nil => simp [addRoundKey] at hx
    | cons b k =>
      simp only [addRoundKey, List.zipWith_cons_cons, List.mem_cons] at hx
      rcases hx with rfl | hx
      · exact xor_lt256 (hs a (by simp)) (hk b (by simp))
      · exact ih k (fun y hy => hk y (by simp [hy])) (fun y hy => hs y (by simp [hy])) x hx

theorem valid_addRoundKey {k s : List Nat} (hk : ValidState k) (hs : ValidState s) :
    ValidState (addRoundKey k s) :=
  ⟨by rw [addRoundKey_length, hk.1, hs.1]; simp, addRoundKey_lt k s hk.2 hs.2⟩

/-- AddRoundKey is an involution (when the key is at least as long as the
state). -/
theorem addRoundKey_cancel (k s : List Nat) (h : s.length ≤ k.length) :
    addRoundKey k (addRoundKey k s) = s := by
  induction s generalizing k with
  | nil => simp [addRoundKey]
  | cons a s ih =>
    cases k with
    | nil => simp at h
    | cons b k =>
      simp only [addRoundKey, List.zipWith_cons_cons]
      rw [Nat.xor_cancel_right]
      have := ih k (by simpa using h)
      simp only [addRoundKey] at this
      rw [this]

theorem xorBytes_length (x y : List Nat) :
    (xorBytes x y).length = min x.length y.length := by simp [xorBytes]

theorem xorBytes_lt (x y : List Nat) (hx : ∀ a ∈ x, a < 256) (hy : ∀ a ∈ y, a < 256) :
    ∀ a ∈ xorBytes x y, a < 256 := by
  induction x generalizing y with
  | nil => intro a ha; simp [xorBytes] at ha
  | cons b x ih =>
    intro a ha
    cases y with
    | nil => simp [xorBytes] at ha
    | cons c y =>
      simp only [xorBytes, List.zipWith_cons_cons, List.mem_cons] at ha
      rcases ha with rfl | ha
      · exact xor_lt256 (hx b (by simp)) (hy c (by simp))
      · exact ih y (fun u hu => hx u (by simp [hu])) (fun u hu => hy u (by simp [hu])) a ha

/-- Xoring the same prefix twice gives the original back. -/
theorem xorBytes_cancel (p b : List Nat) (h : b.length ≤ p.length) :
    xorBytes p (xorBytes p b) = b := by
  induction b generalizing p with
  | nil => simp [xorBytes]
  | cons a b ih =>
    cases p with
    | nil => simp at h
    | cons q p =>
      simp only [xorBytes, List.zipWith_cons_cons]
      rw [Nat.xor_cancel_left]
      have := ih p (by simpa using h)
      simp only [xorBytes] at this
      rw [this]

theorem mem_joinL {x : Nat} {bls : List (List Nat)} (hx : x ∈ joinL bls) :
    ∃ b ∈ bls, x ∈ b := by
  induction bls with
  | nil => simp [joinL] at hx
  | cons b bs ih =>
    simp only [joinL, List.mem_append] at hx
    rcases hx with hx | hx
    · exact ⟨b, by simp, hx⟩
    · obtain ⟨c, hc, hxc⟩ := ih hx
      exact ⟨c, by simp [hc], hxc⟩

theorem valid_stepE {k s : List Nat} (hk : ValidState k) (hs : ValidState s) :
    ValidState (stepE s k) :=
  valid_addRoundKey hk (valid_mixColumns (valid_shiftRows (valid_subBytes hs)))

theorem valid_stepD {k s : List Nat} (hk : ValidState k) (hs : ValidState s) :
    ValidState (stepD s k) :=
  valid_invSubBytes (valid_invShiftRows (valid_invMixColumns (valid_addRoundKey hk hs)))

theorem valid_foldE {M : List (List Nat)} {s : List Nat}
    (hM : ∀ k ∈ M, ValidState k) (hs : ValidState s) : ValidState (foldE M s) := by
  induction M generalizing s with
  | nil => exact hs
  | cons k M ih =>
    exact ih (fun x hx => hM x (by simp [hx])) (valid_stepE (hM k (by simp)) hs)

/-- One inverse round undoes one round. -/
theorem stepD_stepE (k s : List Nat) (hk : ValidState k) (hs : ValidState s) :
    stepD (stepE s k) k = s := by
  unfold stepD stepE
  have h1 : ValidState (subBytes s) := valid_subBytes hs
  have h2 : ValidState (shiftRows (subBytes s)) := valid_shiftRows h1
  have h3 : ValidState (mixColumns (shiftRows (subBytes s))) := valid_mixColumns h2
  rw [addRoundKey_cancel k _ (by rw [h3.1, hk.1])]
  rw [invMixColumns_mixColumns _ h2]
  rw [invShiftRows_shiftRows _ h1.1]
  rw [invSubBytes_subBytes s hs.2]

/-- The reversed decryption fold undoes the encryption fold. -/
theorem foldD_foldE (M : List (List Nat)) (s : List Nat)
    (hM : ∀ k ∈ M, ValidState k) (hs : ValidState s) :
    foldD M.reverse (foldE M s) = s := by
  induction M generalizing s with
  | nil => rfl
  | cons k M ih =>
    show foldD (k :: M).reverse (foldE M (stepE s k)) = s
    rw [List.reverse_cons]
    show List.foldl stepD (foldE M (stepE s k)) (M.reverse ++ [k]) = s
    rw [List.foldl_append]
    have hih := ih (stepE s k) (fun x hx => hM x (by simp [hx]))
      (valid_stepE (hM k (by simp)) hs)
    show stepD (foldD M.reverse (foldE M (stepE s k))) k = s
    rw [hih]
    exact stepD_stepE k s (hM k (by simp)) hs

theorem encRounds_append (M : List (List Nat)) (k : List Nat) (s : List Nat) :
    encRounds (M ++ [k]) s = addRoundKey k (shiftRows (subBytes (foldE M s))) := by
  induction M generalizing s with
  | nil => rfl
  | cons m M ih =>
    cases M with
    | nil => rfl
    | cons m' M' =>
      show encRounds ((m' :: M') ++ [k]) (stepE s m) = _
      rw [ih (stepE s m)]
      rfl

theorem decRounds_append (N : List (List Nat)) (k : List Nat) (s : List Nat) :
    decRounds (N ++ [k]) s = addRoundKey k (foldD N s) := by
  induction N generalizing s with
  | nil => rfl
  | cons m N ih =>
    cases N with
    | nil => rfl
    | cons m' N' =>
      show decRounds ((m' :: N') ++ [k]) (stepD s m) = _
      rw [ih (stepD s m)]
      rfl

theorem aesDecryptBlock_eq (k0 : List Nat) (M : List (List Nat)) (kR s : List Nat) :
    aesDecryptBlock (k0 :: (M ++ [kR])) s =
      addRoundKey k0 (foldD M.reverse (invSubBytes (invShiftRows (addRoundKey kR s)))) := by
  unfold aesDecryptBlock
  have hrev : (k0 :: (M ++ [kR])).reverse = kR :: (M.reverse ++ [k0]) := by simp
  rw [hrev]
  exact decRounds_append M.reverse k0 _

/-- Decrypting a block with the same round keys undoes encrypting it. -/
theorem aesDecryptBlock_aesEncryptBlock (ks : List (List Nat)) (hlen : 2 ≤ ks.length)
    (hks : ∀ k ∈ ks, ValidState k) (s : List Nat) (hs : ValidState s) :
    aesDecryptBlock ks (aesEncryptBlock ks s) = s := by
  cases ks with
  | nil => simp at hlen
  | cons k0 rest =>
    have hrest : rest ≠ [] := by
      intro e; subst e; simp at hlen
    obtain ⟨M, kR, rfl⟩ : ∃ M kR, rest = M ++ [kR] :=
      ⟨rest.dropLast, rest.getLast hrest, (List.dropLast_append_getLast hrest).symm⟩
    have hk0 : ValidState k0 := hks k0 (by simp)
    have hkR : ValidState kR := hks kR (by simp)
    have hM : ∀ k ∈ M, ValidState k := fun k hk => hks k (by simp [hk])
    have hs0 : ValidState (addRoundKey k0 s) := valid_addRoundKey hk0 hs
    have hfe : ValidState (foldE M (addRoundKey k0 s)) := valid_foldE hM hs0
    show aesDecryptBlock (k0 :: (M ++ [kR])) (encRounds (M ++ [kR]) (addRoundKey k0 s)) = s
    rw [encRounds_append, aesDecryptBlock_eq]
    have h1 : ValidState (subBytes (foldE M (addRoundKey k0 s))) := valid_subBytes hfe
    have h2 : ValidState (shiftRows (subBytes (foldE M (addRoundKey k0 s)))) :=
      valid_shiftRows h1
    rw [addRoundKey_cancel kR _ (by rw [h2.1, hkR.1])]
    rw [invShiftRows_shiftRows _ h1.1]
    rw [invSubBytes_subBytes _ hfe.2]
    rw [foldD_foldE M _ hM hs0]
    rw [addRoundKey_cancel k0 s (by rw [hs.1, hk0.1])]

theorem valid_encRounds (ks : List (List Nat)) (s : List Nat)
    (hks : ∀ k ∈ ks, ValidState k) (hs : ValidState s) : ValidState (encRounds ks s) := by
  induction ks generalizing s with
  | nil => exact hs
  | cons k rest ih =>
    cases rest with
    | nil => exact valid_addRoundKey (hks k (by simp)) (valid_shiftRows (valid_subBytes hs))
    | cons k' rest' =>
      exact ih (stepE s k) (fun x hx => hks x (by simp [hx]))
        (valid_stepE (hks k (by simp)) hs)

theorem valid_decRounds (ks : List (List Nat)) (s : List Nat)
    (hks : ∀ k ∈ ks, ValidState k) (hs : ValidState s) : ValidState (decRounds ks s) := by
  induction ks generalizing s with
  | nil => exact hs
  | cons k rest ih =>
    cases rest with
    | nil => exact valid_addRoundKey (hks k (by simp)) hs
    | cons k' rest' =>
      exact ih (stepD s k) (fun x hx => hks x (by simp [hx]))
        (valid_stepD (hks k (by simp)) hs)

theorem valid_aesEncryptBlock {ks : List (List Nat)} {s : List Nat}
    (hks : ∀ k ∈ ks, ValidState k) (hs : ValidState s) : ValidState (aesEncryptBlock ks s) := by
  cases ks with
  | nil => exact hs
  | cons k0 rest =>
    exact valid_encRounds rest _ (fun x hx => hks x (by simp [hx]))
      (valid_addRoundKey (hks k0 (by simp)) hs)

theorem valid_aesDecryptBlock {ks : List (List Nat)} {s : List Nat}
    (hks : ∀ k ∈ ks, ValidState k) (hs : ValidState s) : ValidState (aesDecryptBlock ks s) := by
  unfold aesDecryptBlock
  have hrev : ∀ k ∈ ks.reverse, ValidState k := fun k hk => hks k (List.mem_reverse.mp hk)
  cases h : ks.reverse with
  | nil => exact hs
  | cons kR rest =>
    have hkR : ValidState kR := hrev kR (by rw [h]; simp)
    exact valid_decRounds rest _ (fun x hx => hrev x (by rw [h]; simp [hx]))
      (valid_invSubBytes (valid_invShiftRows (valid_addRoundKey hkR hs)))

/-! ## ECB and CBC roundtrips -/

theorem valid_chunks16 (msg : List Nat) (hmod : msg.length % 16 = 0)
    (hb : ∀ x ∈ msg, x < 256) : ∀ b ∈ chunksN 16 msg, ValidState b := fun b hbm =>
  ⟨chunksN_length_all 16 (by omega) msg hmod b hbm,
   fun x hx => hb x (mem_of_mem_chunksN 16 msg b hbm x hx)⟩

/-- ECB decryption undoes ECB encryption on block-aligned byte data. -/
theorem ecbDecryptRaw_ecbEncryptRaw (ks : List (List Nat)) (hlen : 2 ≤ ks.length)
    (hks : ∀ k ∈ ks, ValidState k) (msg : List Nat) (hmod : msg.length % 16 = 0)
    (hb : ∀ x ∈ msg, x < 256) : ecbDecryptRaw ks (ecbEncryptRaw ks msg) = msg := by
  have hblocks := valid_chunks16 msg hmod hb
  unfold ecbEncryptRaw ecbDecryptRaw
  have hchk : chunksN 16 (joinL ((chunksN 16 msg).map (aesEncryptBlock ks))) =
      (chunksN 16 msg).map (aesEncryptBlock ks) := by
    apply chunksN_joinL 16 _ (by omega)
    intro c hc
    simp only [List.mem_map] at hc
    obtain ⟨b, hbm, rfl⟩ := hc
    exact (valid_aesEncryptBlock hks (hblocks b hbm)).1
  rw [hchk, List.map_map]
  have hmapid : ∀ L : List (List Nat), (∀ b ∈ L, ValidState b) →
      L.map (aesDecryptBlock ks ∘ aesEncryptBlock ks) = L := by
    intro L hL
    induction L with
    | nil => rfl
    | cons b bs ih =>
      simp only [List.map, Function.comp]
      rw [aesDecryptBlock_aesEncryptBlock ks hlen hks b (hL b (by simp)),
        ih fun c hc => hL c (by simp [hc])]
  rw [hmapid _ hblocks]
  exact joinL_chunksN 16 (by omega) msg

/-- CBC block decryption undoes CBC block encryption. -/
theorem cbcDecryptBlocks_cbcEncryptBlocks (ks : List (List Nat)) (hlen : 2 ≤ ks.length)
    (hks : ∀ k ∈ ks, ValidState k) :
    ∀ (bls : List (List Nat)) (prev : List Nat), (∀ b ∈ bls, ValidState b) →
      ValidState prev →
      cbcDecryptBlocks ks prev (cbcEncryptBlocks ks prev bls) = bls := by
  intro bls
  induction bls with
  | nil => intro prev _ _; rfl
  | cons b bs ih =>
    intro prev hbls hprev
    have hb : ValidState b := hbls b (by simp)
    have hxor : ValidState (xorBytes prev b) :=
      ⟨by rw [xorBytes_length, hprev.1, hb.1]; simp, xorBytes_lt _ _ hprev.2 hb.2⟩
    have hc : ValidState (aesEncryptBlock ks (xorBytes prev b)) :=
      valid_aesEncryptBlock hks hxor
    simp only [cbcEncryptBlocks, cbcDecryptBlocks]
    rw [aesDecryptBlock_aesEncryptBlock ks hlen hks _ hxor]
    rw [xorBytes_cancel prev b (by rw [hprev.1, hb.1])]
    rw [ih _ (fun c hc' => hbls c (by simp [hc'])) hc]

theorem valid_cbcEncryptBlocks (ks : List (List Nat)) (hks : ∀ k ∈ ks, ValidState k) :
    ∀ (bls : List (List Nat)) (prev : List Nat), (∀ b ∈ bls, ValidState b) →
      ValidState prev → ∀ c ∈ cbcEncryptBlocks ks prev bls, ValidState c := by
  intro bls
  induction bls with
  | nil => intro prev _ _ c hc; simp [cbcEncryptBlocks] at hc
  | cons b bs ih =>
    intro prev hbls hprev c hc
    have hb : ValidState b := hbls b (by simp)
    have hxor : ValidState (xorBytes prev b) :=
      ⟨by rw [xorBytes_length, hprev.1, hb.1]; simp, xorBytes_lt _ _ hprev.2 hb.2⟩
    have henc : ValidState (aesEncryptBlock ks (xorBytes prev b)) :=
      valid_aesEncryptBlock hks hxor
    simp only [cbcEncryptBlocks, List.mem_cons] at hc
    rcases hc with rfl | hc
    · exact henc
    · exact ih _ (fun d hd => hbls d (by simp [hd])) henc c hc

/-- CBC decryption undoes CBC encryption on block-aligned byte data. -/
theorem cbcDecryptBytes_cbcEncryptBytes (ks : List (List Nat)) (hlen : 2 ≤ ks.length)
    (hks : ∀ k ∈ ks, ValidState k) (iv msg : List Nat) (hiv : ValidState iv)
    (hmod : msg.length % 16 = 0) (hmb : ∀ x ∈ msg, x < 256) :
    cbcDecryptBytes ks iv (cbcEncryptBytes ks iv msg) = msg := by
  have hblocks := valid_chunks16 msg hmod hmb
  unfold cbcEncryptBytes cbcDecryptBytes
  have hchk : chunksN 16 (joinL (cbcEncryptBlocks ks iv (chunksN 16 msg))) =
      cbcEncryptBlocks ks iv (chunksN 16 msg) := by
    apply chunksN_joinL 16 _ (by omega)
    intro c hc
    exact (valid_cbcEncryptBlocks ks hks _ iv hblocks hiv c hc).1
  rw [hchk, cbcDecryptBlocks_cbcEncryptBlocks ks hlen hks _ iv hblocks hiv]
  exact joinL_chunksN 16 (by omega) msg

/-! ## Key schedule facts -/

theorem genRoundKeys_valid (key : List Nat) : ∀ k ∈ genRoundKeys key, ValidState k := by
  intro k hk
  simp only [genRoundKeys, List.mem_map, List.mem_range] at hk
  obtain ⟨r, _, rfl⟩ := hk
  constructor
  · have hlen4 : ∀ b ∈ (List.range 4).map
        (fun j => wordBytes ((keyScheduleWords (bytesToWords key)).getD (4 * r + j) 0)),
        b.length = 4 := by
      intro b hb
      simp only [List.mem_map] at hb
      obtain ⟨j, _, rfl⟩ := hb
      rfl
    rw [joinL_length _ 4 hlen4]
    simp
  · intro x hx
    obtain ⟨b, hbm, hxb⟩ := mem_joinL hx
    simp only [List.mem_map] at hbm
    obtain ⟨j, _, rfl⟩ := hbm
    simp only [wordBytes, List.mem_cons, List.not_mem_nil, or_false] at hxb
    rcases hxb with rfl | rfl | rfl | rfl <;> exact and255_lt _

theorem genRoundKeys_length (key : List Nat) :
    (genRoundKeys key).length = (bytesToWords key).length + 7 := by
  simp [genRoundKeys]

theorem bytesToWords_length (l : List Nat) (h : l.length % 4 = 0) :
    (bytesToWords l).length = l.length / 4 := by
  have hall := chunksN_length_all 4 (by omega) l h
  have hlen := joinL_length (chunksN 4 l) 4 hall
  rw [joinL_chunksN 4 (by omega) l] at hlen
  simp only [bytesToWords, List.length_map]
  omega

/-! ## PKCS7 padding facts -/

theorem pkcs7Pad_mod (l : List Nat) : (pkcs7Pad l).length % 16 = 0 := by
  simp only [pkcs7Pad, List.length_append, List.length_replicate]
  have := Nat.mod_lt l.length (y := 16) (by omega)
  omega

theorem pkcs7Pad_lt (l : List Nat) (hb : ∀ x ∈ l, x < 256) :
    ∀ x ∈ pkcs7Pad l, x < 256 := by
  intro x hx
  simp only [pkcs7Pad, List.mem_append, List.mem_replicate] at hx
  rcases hx with hx | ⟨_, rfl⟩
  · exact hb x hx
  · have := Nat.mod_lt l.length (y := 16) (by omega)
    omega

/-- The last byte of a list padded with `p` copies of `p` is `p`. -/
theorem lastByte_append_replicate (l : List Nat) (p : Nat) (h1 : 1 ≤ p) :
    lastByte (l ++ List.replicate p p) = p := by
  simp only [lastByte, List.length_append, List.length_replicate]
  rw [List.getD_eq_getElem?_getD]
  rw [List.getElem?_append_right (by omega)]
  have hidx : l.length + p - 1 - l.length < p := by omega
  simp [List.getElem?_replicate, hidx]

/-- Unpadding undoes PKCS7 padding. -/
theorem cryptojsUnpad_pkcs7Pad (l : List Nat) : cryptojsUnpad (pkcs7Pad l) = l := by
  have hp : 1 ≤ 16 - l.length % 16 := by
    have := Nat.mod_lt l.length (y := 16) (by omega)
    omega
  show (pkcs7Pad l).take ((pkcs7Pad l).length - lastByte (pkcs7Pad l)) = l
  simp only [pkcs7Pad]
  rw [lastByte_append_replicate l _ hp]
  simp only [List.length_append, List.length_replicate]
  rw [Nat.add_sub_cancel, List.take_left]

/-! ## C1: the generalized-schedule roundtrip -/

/-- C1: for every byte string `msg` and every key of length 16, 32, 36 or 48
bytes, the generalized key schedule yields word-count + 7 round keys
(18 rounds for a 48-byte key), and decrypting the ECB encryption of `msg`
with the same schedule and key returns `msg`. -/
theorem C1_generalized_schedule_roundtrip (key msg : List Nat)
    (hklen : key.length = 16 ∨ key.length = 32 ∨ key.length = 36 ∨ key.length = 48)
    (hkb : ∀ b ∈ key, b < 256) (hmb : ∀ b ∈ msg, b < 256) :
    (genRoundKeys key).length = key.length / 4 + 7 ∧
      aesGenDecryptECB key (aesGenEncryptECB key msg) = msg := by
  have hmod4 : key.length % 4 = 0 := by rcases hklen with h | h | h | h <;> omega
  have hsched : (genRoundKeys key).length = key.length / 4 + 7 := by
    rw [genRoundKeys_length, bytesToWords_length key hmod4]
  refine ⟨hsched, ?_⟩
  have hlen2 : 2 ≤ (genRoundKeys key).length := by
    rw [hsched]; omega
  unfold aesGenEncryptECB aesGenDecryptECB
  rw [ecbDecryptRaw_ecbEncryptRaw (genRoundKeys key) hlen2 (genRoundKeys_valid key)
    (pkcs7Pad msg) (pkcs7Pad_mod msg) (pkcs7Pad_lt msg hmb)]
  exact cryptojsUnpad_pkcs7Pad msg

/-- Witness for C1 at a concrete key and message. -/
theorem C1_generalized_schedule_roundtrip_witness :
    ((List.replicate 48 7 : List Nat).length = 16 ∨ (List.replicate 48 7 : List Nat).length = 32 ∨
      (List.replicate 48 7 : List Nat).length = 36 ∨ (List.replicate 48 7 : List Nat).length = 48) ∧
    ((genRoundKeys (List.replicate 48 7)).length = 48 / 4 + 7 ∧
      aesGenDecryptECB (List.replicate 48 7) (aesGenEncryptECB (List.replicate 48 7) [1, 2, 3]) =
        [1, 2, 3]) := by
  refine ⟨by simp, ?_⟩
  have h := C1_generalized_schedule_roundtrip (List.replicate 48 7) [1, 2, 3]
    (by simp) (by decide) (by decide)
  simpa using h

/-! ## ASCII lemmas for the UTF-8 codec -/

/-- UTF-8 encoding is the identity on ASCII code-point lists. -/
theorem utf8Encode_ascii (l : List Nat) (h : ∀ c ∈ l, c < 128) : utf8Encode l = l := by
  induction l with
  | nil => rfl
  | cons c cs ih =>
    show joinL (utf8EncodeChar c :: cs.map utf8EncodeChar) = c :: cs
    have hc : utf8EncodeChar c = [c] := by
      unfold utf8EncodeChar
      rw [if_pos (h c (by simp))]
    rw [hc]
    show c :: joinL (cs.map utf8EncodeChar) = c :: cs
    rw [show joinL (cs.map utf8EncodeChar) = utf8Encode cs from rfl,
      ih fun x hx => h x (by simp [hx])]

theorem utf8DecodeGo_ascii : ∀ (f : Nat) (l : List Nat), l.length ≤ f →
    (∀ b ∈ l, b < 128) → utf8DecodeGo f l = some l := by
  intro f
  induction f with
  | zero =>
    intro l hl _
    cases l with
    | nil => rfl
    | cons b bs => simp at hl
  | succ f ih =>
    intro l hl hb
    cases l with
    | nil => rfl
    | cons b bs =>
      have hone : utf8DecodeOne (b :: bs) = some (b, 1) := by
        simp only [utf8DecodeOne]
        rw [if_pos (show b < 0x80 from hb b (by simp))]
      show utf8DecodeGo (f + 1) (b :: bs) = some (b :: bs)
      rw [utf8DecodeGo, hone]
      show (utf8DecodeGo f bs).map (b :: ·) = some (b :: bs)
      rw [ih bs (by simp at hl; omega) fun x hx => hb x (by simp [hx])]
      rfl

/-- UTF-8 decoding succeeds on ASCII byte lists and returns them unchanged. -/
theorem utf8Decode_ascii (l : List Nat) (h : ∀ b ∈ l, b < 128) : utf8Decode l = some l :=
  utf8DecodeGo_ascii l.length l (Nat.le_refl _) h

/-! ## Length bookkeeping for CBC data -/

theorem chunksN16_count (l : List Nat) (h : l.length % 16 = 0) :
    (chunksN 16 l).length * 16 = l.length := by
  have hall := chunksN_length_all 16 (by omega) l h
  have hlen := joinL_length (chunksN 16 l) 16 hall
  rw [joinL_chunksN 16 (by omega) l] at hlen
  omega

theorem cbcEncryptBlocks_count (ks : List (List Nat)) :
    ∀ (bls : List (List Nat)) (prev : List Nat),
      (cbcEncryptBlocks ks prev bls).length = bls.length := by
  intro bls
  induction bls with
  | nil => intro prev; rfl
  | cons b bs ih => intro prev; simp only [cbcEncryptBlocks, List.length_cons, ih]

theorem cbcDecryptBlocks_count (ks : List (List Nat)) :
    ∀ (bls : List (List Nat)) (prev : List Nat),
      (cbcDecryptBlocks ks prev bls).length = bls.length := by
  intro bls
  induction bls with
  | nil => intro prev; rfl
  | cons b bs ih => intro prev; simp only [cbcDecryptBlocks, List.length_cons, ih]

theorem valid_cbcDecryptBlocks (ks : List (List Nat)) (hks : ∀ k ∈ ks, ValidState k) :
    ∀ (bls : List (List Nat)) (prev : List Nat), (∀ b ∈ bls, ValidState b) →
      ValidState prev → ∀ c ∈ cbcDecryptBlocks ks prev bls, ValidState c := by
  intro bls
  induction bls with
  | nil => intro prev _ _ c hc; simp [cbcDecryptBlocks] at hc
  | cons b bs ih =>
    intro prev hbls hprev c hc
    have hb : ValidState b := hbls b (by simp)
    have hdec : ValidState (aesDecryptBlock ks b) := valid_aesDecryptBlock hks hb
    have hxor : ValidState (xorBytes prev (aesDecryptBlock ks b)) :=
      ⟨by rw [xorBytes_length, hprev.1, hdec.1]; simp, xorBytes_lt _ _ hprev.2 hdec.2⟩
    simp only [cbcDecryptBlocks, List.mem_cons] at hc
    rcases hc with rfl | hc
    · exact hxor
    · exact ih _ (fun d hd => hbls d (by simp [hd])) hb c hc

/-- CBC decryption preserves the byte length of block-aligned data. -/
theorem cbcDecryptBytes_length (ks : List (List Nat)) (hks : ∀ k ∈ ks, ValidState k)
    (iv ct : List Nat) (hiv : ValidState iv) (hmod : ct.length % 16 = 0)
    (hctb : ∀ x ∈ ct, x < 256) : (cbcDecryptBytes ks iv ct).length = ct.length := by
  have hblocks := valid_chunks16 ct hmod hctb
  unfold cbcDecryptBytes
  rw [joinL_length _ 16 (fun b hb =>
    (valid_cbcDecryptBlocks ks hks _ iv hblocks hiv b hb).1)]
  rw [cbcDecryptBlocks_count]
  exact chunksN16_count ct hmod

/-- CBC encryption preserves the byte length of block-aligned data. -/
theorem cbcEncryptBytes_length (ks : List (List Nat)) (hks : ∀ k ∈ ks, ValidState k)
    (iv msg : List Nat) (hiv : ValidState iv) (hmod : msg.length % 16 = 0)
    (hmb : ∀ x ∈ msg, x < 256) : (cbcEncryptBytes ks iv msg).length = msg.length := by
  have hblocks := valid_chunks16 msg hmod hmb
  unfold cbcEncryptBytes
  rw [joinL_length _ 16 (fun b hb =>
    (valid_cbcEncryptBlocks ks hks _ iv hblocks hiv b hb).1)]
  rw [cbcEncryptBlocks_count]
  exact chunksN16_count msg hmod

/-- The bytes produced by CBC encryption of valid data are bytes. -/
theorem cbcEncryptBytes_lt (ks : List (List Nat)) (hks : ∀ k ∈ ks, ValidState k)
    (iv msg : List Nat) (hiv : ValidState iv) (hmod : msg.length % 16 = 0)
    (hmb : ∀ x ∈ msg, x < 256) : ∀ x ∈ cbcEncryptBytes ks iv msg, x < 256 := by
  intro x hx
  obtain ⟨b, hbm, hxb⟩ := mem_joinL hx
  exact (valid_cbcEncryptBlocks ks hks _ iv (valid_chunks16 msg hmod hmb) hiv b hbm).2 x hxb

/-! ## Shared helpers for `decrypt_file_content` -/

/-- The pass-through branches of `decrypt_file_content`. -/
theorem decrypt_file_content_passthrough (content key : List Nat)
    (h : content.length < 16 ∨ content.length - 16 = 0 ∨ (content.length - 16) % 16 ≠ 0) :
    decrypt_file_content content key = content := by
  simp only [decrypt_file_content]
  by_cases h1 : content.length < 16
  · rw [if_pos h1]
  · rw [if_neg h1, if_pos (show (content.drop 16).length = 0 ∨
      (content.drop 16).length % 16 ≠ 0 by rw [List.length_drop]; omega)]

/-- The decrypting branch of `decrypt_file_content`, exposed as the
decrypted buffer plus the tolerant unpadding decision. -/
theorem decrypt_file_content_decrypt (content key : List Nat)
    (h1 : 16 < content.length) (h2 : (content.length - 16) % 16 = 0) :
    decrypt_file_content content key =
      (if 0 < lastByte (fileDecrypted content key) ∧ lastByte (fileDecrypted content key) ≤ 16
       then
         if pkcs7TailValid (fileDecrypted content key) (lastByte (fileDecrypted content key))
         then (fileDecrypted content key).take
           ((fileDecrypted content key).length - lastByte (fileDecrypted content key))
         else fileDecrypted content key
       else fileDecrypted content key) := by
  simp only [decrypt_file_content]
  rw [if_neg (by omega)]
  rw [if_neg (show ¬((content.drop 16).length = 0 ∨ (content.drop 16).length % 16 ≠ 0) by
    rw [List.length_drop]; omega)]
  rfl

/-! ## C2: the settings-vault padding removal -/

set_option maxRecDepth 100000 in
/-- C2 counterexample: the settings pipeline trims a buffer whose trailing
bytes are not all equal to the padding length, instead of failing.  The
decrypted buffer is `c2Plain` (last byte 3, final three bytes 7, 7, 3), and
the vault happily returns the trimmed prefix. -/
theorem C2_counterexample :
    ecbDecryptRaw (genRoundKeys (dollarB uuidSecret)) (c2Blob.drop 256) = c2Plain ∧
    lastByte c2Plain = 3 ∧
    pkcs7TailValid c2Plain 3 = false ∧
    settingsVaultDecrypt uuidSecret c2Blob = some (List.replicate 13 0) := by
  have hks2 : 2 ≤ (genRoundKeys (dollarB uuidSecret)).length := by
    rw [genRoundKeys_length, bytesToWords_length _ (by decide)]
    have h48 : (dollarB uuidSecret).length = 48 := by decide
    omega
  have hdrop : c2Blob.drop 256 = ecbEncryptRaw (genRoundKeys (dollarB uuidSecret)) c2Plain :=
    List.drop_left' (by decide)
  have hdec : ecbDecryptRaw (genRoundKeys (dollarB uuidSecret)) (c2Blob.drop 256) = c2Plain := by
    rw [hdrop]
    exact ecbDecryptRaw_ecbEncryptRaw _ hks2 (genRoundKeys_valid _) c2Plain (by decide)
      (by decide)
  refine ⟨hdec, by decide, by decide, ?_⟩
  show settingsUnpad (ecbDecryptRaw (genRoundKeys (dollarB uuidSecret)) (c2Blob.drop 256)) =
    some (List.replicate 13 0)
  rw [hdec]
  decide

/-- C2 (amended): after the ECB decryption, with `P` the last decrypted
byte, the final `P` bytes are trimmed if and only if `1 ≤ P ≤ 16` — the
trailing bytes themselves are never checked; only when `P` is outside that
range does the vault fail. -/
theorem C2_settings_unpad (key blob : List Nat) :
    (settingsVaultDecrypt key blob = some ((settingsDecrypted key blob).take
        ((settingsDecrypted key blob).length - lastByte (settingsDecrypted key blob))) ↔
      0 < lastByte (settingsDecrypted key blob) ∧ lastByte (settingsDecrypted key blob) ≤ 16) ∧
    (settingsVaultDecrypt key blob = none ↔
      ¬(0 < lastByte (settingsDecrypted key blob) ∧
        lastByte (settingsDecrypted key blob) ≤ 16)) := by
  have hd : settingsVaultDecrypt key blob = settingsUnpad (settingsDecrypted key blob) := rfl
  rw [hd]
  unfold settingsUnpad
  by_cases hc : 0 < lastByte (settingsDecrypted key blob) ∧
      lastByte (settingsDecrypted key blob) ≤ 16
  · rw [if_pos hc]; simp [hc]
  · rw [if_neg hc]; simp [hc]

/-! ## C3: book-key derivation error behavior -/

set_option maxRecDepth 100000 in
theorem c3ct_length : (cbcEncryptBytes (genRoundKeys (utf8Encode c3DevId))
    (List.replicate 16 0) (List.replicate 16 65)).length = 16 := by
  rw [cbcEncryptBytes_length _ (genRoundKeys_valid _) _ _ ⟨by decide, by decide⟩
    (by decide) (by decide)]
  decide

set_option maxRecDepth 100000 in
theorem c3File_take : c3File.take 16 = List.replicate 16 0 :=
  List.take_left' (by decide)

set_option maxRecDepth 100000 in
theorem c3File_drop : c3File.drop 16 = cbcEncryptBytes (genRoundKeys (utf8Encode c3DevId))
    (List.replicate 16 0) (List.replicate 16 65) :=
  List.drop_left' (by decide)

set_option maxRecDepth 100000 in
theorem c3_ks2 : 2 ≤ (genRoundKeys (utf8Encode c3DevId)).length := by
  rw [genRoundKeys_length, bytesToWords_length _ (by decide)]
  have h16 : (utf8Encode c3DevId).length = 16 := by decide
  omega

set_option maxRecDepth 100000 in
theorem c3_decrypt : cbcDecryptBytes (genRoundKeys (utf8Encode (c3DevId.take 16)))
    (c3File.take 16) (c3File.drop 16) = List.replicate 16 65 := by
  rw [show c3DevId.take 16 = c3DevId from by decide, c3File_take, c3File_drop]
  exact cbcDecryptBytes_cbcEncryptBytes _ c3_ks2 (genRoundKeys_valid _) _ _
    ⟨by decide, by decide⟩ (by decide) (by decide)

set_option maxRecDepth 100000 in
/-- C3 counterexample: a key-material file whose decryption is valid UTF-8
of only 16 characters is not rejected — `derive_book_key` silently returns
the empty slice instead of failing. -/
theorem C3_counterexample :
    utf8Decode (cbcDecryptBytes (genRoundKeys (utf8Encode (c3DevId.take 16)))
      (c3File.take 16) (c3File.drop 16)) = some (List.replicate 16 65) ∧
    (List.replicate 16 65 : List Nat).length < 84 ∧
    derive_book_key c3File c3DevId = some [] := by
  have hdec : utf8Decode (cbcDecryptBytes (genRoundKeys (utf8Encode (c3DevId.take 16)))
      (c3File.take 16) (c3File.drop 16)) = some (List.replicate 16 65) := by
    rw [c3_decrypt]
    exact utf8Decode_ascii _ (by decide)
  refine ⟨hdec, by decide, ?_⟩
  simp only [derive_book_key]
  rw [if_neg (fun hne => hne (by decide : (utf8Encode (c3DevId.take 16)).length = 16))]
  rw [if_neg (not_or.mpr ⟨fun hne => hne (by rw [c3File_take]; decide),
    fun hne => hne (by rw [c3File_drop, c3ct_length])⟩)]
  rw [hdec]
  decide

/-- C3 (amended): `derive_book_key` fails exactly when the CBC-decrypted
bytes are not valid UTF-8; decoded text shorter than 84 characters is not
an error — the character slice `[68:84]` is silently truncated, possibly to
an empty key. -/
theorem C3_derive_book_key (file devId : List Nat)
    (hkey : (utf8Encode (devId.take 16)).length = 16)
    (hiv : 16 ≤ file.length)
    (hct : (file.drop 16).length % 16 = 0) :
    derive_book_key file devId =
      (utf8Decode (cbcDecryptBytes (genRoundKeys (utf8Encode (devId.take 16)))
        (file.take 16) (file.drop 16))).map
        (fun cps => utf8Encode ((cps.drop 68).take 16)) := by
  have hivlen : (file.take 16).length = 16 := by
    rw [List.length_take]; omega
  simp only [derive_book_key]
  rw [if_neg (fun hne => hne hkey)]
  rw [if_neg (show ¬((file.take 16).length ≠ 16 ∨ (file.drop 16).length % 16 ≠ 0) from
    not_or.mpr ⟨fun hne => hne hivlen, fun hne => hne hct⟩)]
  cases hdec : utf8Decode (cbcDecryptBytes (genRoundKeys (utf8Encode (devId.take 16)))
      (file.take 16) (file.drop 16)) with
  | none => rfl
  | some cps => rfl

set_option maxRecDepth 100000 in
theorem c3File_length : 16 ≤ c3File.length := by
  show 16 ≤ (List.replicate 16 0 ++ _).length
  rw [List.length_append, c3ct_length]
  decide

set_option maxRecDepth 100000 in
theorem c3File_mod : (c3File.drop 16).length % 16 = 0 := by
  rw [c3File_drop, c3ct_length]

set_option maxRecDepth 100000 in
/-- Witness for the amended C3 at the concrete short-text file. -/
theorem C3_derive_book_key_witness :
    ((utf8Encode (c3DevId.take 16)).length = 16 ∧ 16 ≤ c3File.length ∧
      (c3File.drop 16).length % 16 = 0) ∧
    derive_book_key c3File c3DevId =
      (utf8Decode (cbcDecryptBytes (genRoundKeys (utf8Encode (c3DevId.take 16)))
        (c3File.take 16) (c3File.drop 16))).map
        (fun cps => utf8Encode ((cps.drop 68).take 16)) :=
  ⟨⟨by decide, c3File_length, c3File_mod⟩,
    C3_derive_book_key c3File c3DevId (by decide) c3File_length c3File_mod⟩

/-! ## C4: size-based pass-through -/

/-- C4: whenever the total length is below 16, or the length minus 16 is
zero or not a multiple of 16, `decrypt_file_content` returns its input
byte-for-byte. -/
theorem C4_pass_through (content key : List Nat)
    (h : content.length < 16 ∨ content.length - 16 = 0 ∨ (content.length - 16) % 16 ≠ 0) :
    decrypt_file_content content key = content :=
  decrypt_file_content_passthrough content key h

set_option maxRecDepth 100000 in
/-- Witness for C4 at buffers of length 10 and 30. -/
theorem C4_pass_through_witness :
    ((List.replicate 10 9 : List Nat).length < 16 ∨
      (List.replicate 10 9 : List Nat).length - 16 = 0 ∨
      ((List.replicate 10 9 : List Nat).length - 16) % 16 ≠ 0) ∧
    decrypt_file_content (List.replicate 10 9) (List.replicate 16 1) = List.replicate 10 9 ∧
    ((List.replicate 30 9 : List Nat).length < 16 ∨
      (List.replicate 30 9 : List Nat).length - 16 = 0 ∨
      ((List.replicate 30 9 : List Nat).length - 16) % 16 ≠ 0) ∧
    decrypt_file_content (List.replicate 30 9) (List.replicate 16 1) = List.replicate 30 9 :=
  ⟨by decide, C4_pass_through _ _ (by decide), by decide, C4_pass_through _ _ (by decide)⟩

/-! ## C5: tolerant unpadding, never an error -/

/-- C5: on the decrypting branch, with `P` the last decrypted byte,
`decrypt_file_content` trims the final `P` bytes when `1 ≤ P ≤ 16` and the
trailing `P` bytes all equal `P`, and otherwise returns the decrypted bytes
untrimmed — it never fails (it is a total function). -/
theorem C5_tolerant_unpad (content key : List Nat)
    (h1 : 16 < content.length) (h2 : (content.length - 16) % 16 = 0) :
    (0 < lastByte (fileDecrypted content key) ∧ lastByte (fileDecrypted content key) ≤ 16 ∧
        pkcs7TailValid (fileDecrypted content key) (lastByte (fileDecrypted content key)) =
          true →
      decrypt_file_content content key = (fileDecrypted content key).take
        ((fileDecrypted content key).length - lastByte (fileDecrypted content key))) ∧
    (¬(0 < lastByte (fileDecrypted content key) ∧ lastByte (fileDecrypted content key) ≤ 16 ∧
        pkcs7TailValid (fileDecrypted content key) (lastByte (fileDecrypted content key)) =
          true) →
      decrypt_file_content content key = fileDecrypted content key) := by
  rw [decrypt_file_content_decrypt content key h1 h2]
  constructor
  · rintro ⟨ha, hb, hc⟩
    rw [if_pos ⟨ha, hb⟩, if_pos hc]
  · intro hn
    by_cases ha : 0 < lastByte (fileDecrypted content key) ∧
        lastByte (fileDecrypted content key) ≤ 16
    · by_cases hc : pkcs7TailValid (fileDecrypted content key)
          (lastByte (fileDecrypted content key)) = true
      · exact absurd ⟨ha.1, ha.2, hc⟩ hn
      · rw [if_pos ha, if_neg hc]
    · rw [if_neg ha]

set_option maxRecDepth 100000 in
/-- Witness for C5 at a concrete 32-byte content file. -/
theorem c5Content_length : c5Content.length = 32 := by
  show (List.replicate 16 0 ++ _).length = 32
  rw [List.length_append, cbcEncryptBytes_length _ (genRoundKeys_valid _) _ _
    ⟨by decide, by decide⟩ (pkcs7Pad_mod _) (pkcs7Pad_lt _ (by decide))]
  decide

set_option maxRecDepth 100000 in
/-- Witness for C5 at a concrete 32-byte content file. -/
theorem C5_tolerant_unpad_witness :
    (16 < c5Content.length ∧ (c5Content.length - 16) % 16 = 0) ∧
    ((0 < lastByte (fileDecrypted c5Content (List.replicate 16 1)) ∧
        lastByte (fileDecrypted c5Content (List.replicate 16 1)) ≤ 16 ∧
        pkcs7TailValid (fileDecrypted c5Content (List.replicate 16 1))
          (lastByte (fileDecrypted c5Content (List.replicate 16 1))) = true →
      decrypt_file_content c5Content (List.replicate 16 1) =
        (fileDecrypted c5Content (List.replicate 16 1)).take
          ((fileDecrypted c5Content (List.replicate 16 1)).length -
            lastByte (fileDecrypted c5Content (List.replicate 16 1)))) ∧
    (¬(0 < lastByte (fileDecrypted c5Content (List.replicate 16 1)) ∧
        lastByte (fileDecrypted c5Content (List.replicate 16 1)) ≤ 16 ∧
        pkcs7TailValid (fileDecrypted c5Content (List.replicate 16 1))
          (lastByte (fileDecrypted c5Content (List.replicate 16 1))) = true) →
      decrypt_file_content c5Content (List.replicate 16 1) =
        fileDecrypted c5Content (List.replicate 16 1))) :=
  ⟨⟨by rw [c5Content_length]; omega, by rw [c5Content_length]⟩,
    C5_tolerant_unpad c5Content (List.replicate 16 1) (by rw [c5Content_length]; omega)
      (by rw [c5Content_length])⟩

/-! ## C6: the `$b` key-padding condition -/

set_option maxRecDepth 100000 in
/-- C6 counterexample: for eight copies of `é` the UTF-8 byte length is 16,
a multiple of 16, yet `$b` pads — because the condition tests the
JavaScript string length (8), not the byte length. -/
theorem C6_counterexample :
    (utf8Encode c6Str).length % 16 = 0 ∧
    dollarB c6Str ≠ utf8Encode c6Str ∧
    (dollarB c6Str).length = 32 := by
  refine ⟨by decide, by decide, by decide⟩

/-- C6 (amended): `$b` pads exactly when the JavaScript string length
(UTF-16 code units) is not a multiple of 16 — not the UTF-8 byte length;
for the fixed 36-character DeviceSecret the key material is 48 bytes. -/
theorem C6_dollarB (e : List Nat) :
    (dollarB e ≠ utf8Encode e ↔ jsStrLength e % 16 ≠ 0) ∧
    (dollarB uuidSecret).length = 48 := by
  constructor
  · constructor
    · intro hne
      by_contra h0
      apply hne
      simp only [dollarB]
      rw [if_neg (show ¬(jsStrLength e % 16 ≠ 0) from fun hc => hc h0)]
    · intro hcond heq
      simp only [dollarB] at heq
      rw [if_pos hcond] at heq
      have hlen := congrArg List.length heq
      simp only [pkcs7Pad, List.length_append, List.length_replicate] at hlen
      have := Nat.mod_lt (utf8Encode e).length (y := 16) (by omega)
      omega
  · decide

/-! ## C7: book-key recovery from a well-formed key-material file -/

/-- C7: a key-material file built as `IV ‖ AES-128-CBC(key = first 16 bytes
of the device identifier, PKCS7(plaintext))`, with ASCII plaintext of at
least 84 characters and an ASCII device identifier, decrypts to the padded
plaintext, and the derived book key is the character slice `[68:84]` of the
decoded text, re-encoded as UTF-8. -/
theorem C7_book_key_derivation (plaintext devId iv : List Nat)
    (hpt : ∀ c ∈ plaintext, c < 128) (hlen : 84 ≤ plaintext.length)
    (hdev : ∀ c ∈ devId, c < 128) (hdlen : 16 ≤ devId.length)
    (hiv : iv.length = 16) (hivb : ∀ x ∈ iv, x < 256) :
    derive_book_key
      (iv ++ cbcEncryptBytes (genRoundKeys (utf8Encode (devId.take 16))) iv
        (pkcs7Pad (utf8Encode plaintext))) devId =
      some (utf8Encode ((plaintext.drop 68).take 16)) := by
  have hkeyeq : utf8Encode (devId.take 16) = devId.take 16 :=
    utf8Encode_ascii _ fun c hc => hdev c (List.mem_of_mem_take hc)
  have hkeylen : (utf8Encode (devId.take 16)).length = 16 := by
    rw [hkeyeq, List.length_take]; omega
  have hpteq : utf8Encode plaintext = plaintext := utf8Encode_ascii _ hpt
  have hks := genRoundKeys_valid (utf8Encode (devId.take 16))
  have hks2 : 2 ≤ (genRoundKeys (utf8Encode (devId.take 16))).length := by
    rw [genRoundKeys_length, bytesToWords_length _ (by omega)]
    omega
  have hmsgmod := pkcs7Pad_mod (utf8Encode plaintext)
  have hmsgascii : ∀ b ∈ pkcs7Pad (utf8Encode plaintext), b < 128 := by
    intro b hb
    rw [hpteq] at hb
    simp only [pkcs7Pad, List.mem_append, List.mem_replicate] at hb
    rcases hb with hb | ⟨_, rfl⟩
    · exact hpt b hb
    · have := Nat.mod_lt plaintext.length (y := 16) (by omega)
      omega
  have hmsgb : ∀ b ∈ pkcs7Pad (utf8Encode plaintext), b < 256 := by
    intro b hb; have := hmsgascii b hb; omega
  have hivV : ValidState iv := ⟨hiv, hivb⟩
  have hctlen : (cbcEncryptBytes (genRoundKeys (utf8Encode (devId.take 16))) iv
      (pkcs7Pad (utf8Encode plaintext))).length = (pkcs7Pad (utf8Encode plaintext)).length :=
    cbcEncryptBytes_length _ hks iv _ hivV hmsgmod hmsgb
  have htake : (iv ++ cbcEncryptBytes (genRoundKeys (utf8Encode (devId.take 16))) iv
      (pkcs7Pad (utf8Encode plaintext))).take 16 = iv := by
    rw [← hiv]; exact List.take_left iv _
  have hdrop : (iv ++ cbcEncryptBytes (genRoundKeys (utf8Encode (devId.take 16))) iv
      (pkcs7Pad (utf8Encode plaintext))).drop 16 =
      cbcEncryptBytes (genRoundKeys (utf8Encode (devId.take 16))) iv
        (pkcs7Pad (utf8Encode plaintext)) := by
    rw [← hiv]; exact List.drop_left iv _
  simp only [derive_book_key]
  rw [if_neg (fun hne => hne hkeylen)]
  rw [htake, hdrop]
  rw [if_neg (not_or.mpr ⟨fun hne => hne hiv,
    fun hne => hne (by rw [hctlen]; exact hmsgmod)⟩)]
  rw [cbcDecryptBytes_cbcEncryptBytes _ hks2 hks iv _ hivV hmsgmod hmsgb]
  rw [utf8Decode_ascii _ hmsgascii]
  show some (utf8Encode (((pkcs7Pad (utf8Encode plaintext)).drop 68).take 16)) = _
  have hslice : ((pkcs7Pad (utf8Encode plaintext)).drop 68).take 16 =
      (plaintext.drop 68).take 16 := by
    rw [hpteq]
    show ((plaintext ++ List.replicate (16 - plaintext.length % 16)
      (16 - plaintext.length % 16)).drop 68).take 16 = _
    rw [List.drop_append_of_le_length (by omega)]
    rw [List.take_append_of_le_length (by rw [List.length_drop]; omega)]
  rw [hslice]

set_option maxRecDepth 100000 in
/-- Witness for C7 at a concrete 84-character plaintext. -/
theorem C7_book_key_derivation_witness :
    ((∀ c ∈ (List.range 84).map (fun i => 65 + i % 26), c < 128) ∧
      84 ≤ ((List.range 84).map (fun i => 65 + i % 26)).length ∧
      (∀ c ∈ c3DevId, c < 128) ∧ 16 ≤ c3DevId.length ∧
      (List.replicate 16 2 : List Nat).length = 16 ∧
      (∀ x ∈ (List.replicate 16 2 : List Nat), x < 256)) ∧
    derive_book_key
      (List.replicate 16 2 ++
        cbcEncryptBytes (genRoundKeys (utf8Encode (c3DevId.take 16))) (List.replicate 16 2)
          (pkcs7Pad (utf8Encode ((List.range 84).map (fun i => 65 + i % 26))))) c3DevId =
      some (utf8Encode ((((List.range 84).map (fun i => 65 + i % 26)).drop 68).take 16)) :=
  ⟨⟨by decide, by decide, by decide, by decide, by decide, by decide⟩,
    C7_book_key_derivation _ c3DevId _ (by decide) (by decide) (by decide) (by decide)
      (by decide) (by decide)⟩

/-! ## C8: credential decoding failures -/

/-- C8: whenever the input is not valid base64, or decodes to a byte string
whose length is not exactly 36, `secretDecoder` fails (the
`MalformedCredentialError` of the spec). -/
theorem C8_secret_decoder (s : String)
    (h : (base64Decode s.data).map List.length ≠ some 36) :
    secretDecoder s = none := by
  unfold secretDecoder
  cases hb : base64Decode s.data with
  | none => rfl
  | some bytes =>
    rw [hb] at h
    show (if bytes.length = 36 then utf8Decode bytes else none) = none
    rw [if_neg (by simpa using h)]

set_option maxRecDepth 100000 in
/-- Witness for C8 at a short valid base64 input and an invalid one. -/
theorem C8_secret_decoder_witness :
    ((base64Decode "aGk=".data).map List.length ≠ some 36 ∧
      (base64Decode "ab!d".data).map List.length ≠ some 36) ∧
    secretDecoder "aGk=" = none ∧ secretDecoder "ab!d" = none :=
  ⟨⟨by decide, by decide⟩, C8_secret_decoder _ (by decide), C8_secret_decoder _ (by decide)⟩

/-! ## C9: device-identifier extraction -/

/-- C9 counterexample: in `c9Record` the `deviceId` field is absent on both
paths, yet the extraction of `decrypt_settings.js` succeeds with the
JavaScript value `undefined` instead of failing. -/
theorem C9_counterexample :
    ((c9Record.getField "data").getField "device").getField "deviceId" = Js.undefined ∧
    (c9Record.getField "device").getField "deviceId" = Js.undefined ∧
    extractDeviceId c9Record = some Js.undefined := by
  exact ⟨rfl, rfl, rfl⟩

/-- C9 (amended): the extraction produces nothing exactly when neither
`parsed.data.device` nor `parsed.device` is truthy; when a device object is
present but `deviceId` is absent it "succeeds" with `undefined`. -/
theorem C9_extract_device_id (parsed : Js) :
    extractDeviceId parsed = none ↔
      ¬((parsed.getField "data").truthy = true ∧
          ((parsed.getField "data").getField "device").truthy = true) ∧
        ¬((parsed.getField "device").truthy = true) := by
  unfold extractDeviceId
  split_ifs with h1 h2
  · simp [h1]
  · simp [h1, h2]
  · simp [h1, h2]

/-! ## C10: output never longer than input -/

/-- C10: for a 16-byte key and a byte buffer, the output of
`decrypt_file_content` is never longer than the input: pass-through returns
exactly the input, and the decrypting branch returns `length − 16` bytes or
`length − 16 − P` after trimming. -/
theorem C10_output_length (content key : List Nat) (hkey : key.length = 16)
    (hb : ∀ x ∈ content, x < 256) :
    (decrypt_file_content content key).length ≤ content.length ∧
    ((content.length < 16 ∨ content.length - 16 = 0 ∨ (content.length - 16) % 16 ≠ 0) →
      decrypt_file_content content key = content) ∧
    (¬(content.length < 16 ∨ content.length - 16 = 0 ∨ (content.length - 16) % 16 ≠ 0) →
      (decrypt_file_content content key).length = content.length - 16 ∨
        (decrypt_file_content content key).length = content.length - 16 -
          lastByte (fileDecrypted content key)) := by
  by_cases hpass : content.length < 16 ∨ content.length - 16 = 0 ∨
      (content.length - 16) % 16 ≠ 0
  · rw [decrypt_file_content_passthrough content key hpass]
    exact ⟨Nat.le_refl _, fun _ => rfl, fun hn => absurd hpass hn⟩
  · have h1 : 16 < content.length := by omega
    have h2 : (content.length - 16) % 16 = 0 := by omega
    have hctmod : (content.drop 16).length % 16 = 0 := by rw [List.length_drop]; omega
    have hivV : ValidState (content.take 16) :=
      ⟨by rw [List.length_take]; omega, fun x hx => hb x (List.mem_of_mem_take hx)⟩
    have hd : (fileDecrypted content key).length = content.length - 16 := by
      unfold fileDecrypted
      rw [cbcDecryptBytes_length (genRoundKeys key) (genRoundKeys_valid key) _ _ hivV hctmod
        (fun x hx => hb x (List.mem_of_mem_drop hx))]
      exact List.length_drop 16 content
    rw [decrypt_file_content_decrypt content key h1 h2]
    refine ⟨?_, fun hcon => absurd hcon hpass, fun _ => ?_⟩
    · split_ifs with hp hv
      · rw [List.length_take]; omega
      · omega
      · omega
    · split_ifs with hp hv
      · right; rw [List.length_take]; omega
      · left; omega
      · left; omega

set_option maxRecDepth 100000 in
theorem c5Content_bytes : ∀ x ∈ c5Content, x < 256 := by
  intro x hx
  rcases List.mem_append.mp hx with h | h
  · simp only [List.mem_replicate] at h
    omega
  · exact cbcEncryptBytes_lt _ (genRoundKeys_valid _) _ _ ⟨by decide, by decide⟩
      (pkcs7Pad_mod _) (pkcs7Pad_lt _ (by decide)) x h

set_option maxRecDepth 100000 in
/-- Witness for C10 at a concrete buffer and key. -/
theorem C10_output_length_witness :
    ((List.replicate 16 1 : List Nat).length = 16 ∧
      (∀ x ∈ c5Content, x < 256)) ∧
    (decrypt_file_content c5Content (List.replicate 16 1)).length ≤ c5Content.length :=
  ⟨⟨by decide, c5Content_bytes⟩,
    (C10_output_length c5Content (List.replicate 16 1) (by decide) c5Content_bytes).1⟩

end Bookor

